import Mathlib

set_option maxHeartbeats 1000000

/-!
Verification of the stored-data-object library: a schema-driven JSON
document store.  We shallowly embed the runtime values, the schema
language, the validation/coercion engine, the reference-preserving merge
and the per-file sequential lock, and prove the specified properties.

JavaScript runtime values are modelled as trees.  Every object and array
node carries an identity tag (`id`), standing for the JS reference
identity of that node; in-place mutation of a node is modelled as a pure
function that keeps the node's tag while changing its contents.  This is
faithful for the tree-shaped (alias-free, acyclic) data produced by JSON
parsing and by the validator.  JS numbers are modelled as integers plus
an explicit NaN marker; floating-point width is out of scope.
-/

/-- The numeric payload of a JS number: either NaN or an integer value. -/
inductive JsNum
| nan
| val (n : Int)
deriving DecidableEq, Repr

/-- A JavaScript runtime value.  Object and array nodes carry an identity
tag modelling JS reference identity. -/
inductive JVal
| undefined
| null
| str (s : String)
| num (n : JsNum)
| bool (b : Bool)
| obj (id : Nat) (fields : List (String × JVal))
| arr (id : Nat) (elems : List JVal)
deriving Repr

/-- The JS `typeof` operator on modelled values. -/
def jsTypeof : JVal → String
| .undefined => "undefined"
| .null => "object"
| .str _ => "string"
| .num _ => "number"
| .bool _ => "boolean"
| .obj _ _ => "object"
| .arr _ _ => "object"

/-- `Array.isArray` on modelled values. -/
def isArrayVal : JVal → Bool
| .arr _ _ => true
| _ => false

/-- JS truthiness of a modelled value. -/
def jsTruthy : JVal → Bool
| .undefined => false
| .null => false
| .str s => !(s == "")
| .num .nan => false
| .num (.val n) => !(n == 0)
| .bool b => b
| .obj _ _ => true
| .arr _ _ => true

/-- A value is present when it is neither `undefined` nor `null` (the
guard `data === undefined || data === null` of the validator). -/
def isPresentVal : JVal → Bool
| .undefined => false
| .null => false
| _ => true

/-- Property read `o[k]` on an object's field list: first binding wins
(JS objects have unique keys, so the representation invariant makes this
unambiguous). -/
def objGet : List (String × JVal) → String → Option JVal
| [], _ => none
| (k', v') :: rest, k => if k' == k then some v' else objGet rest k

/-- Property write `o[k] = v`: replaces an existing binding in place,
otherwise appends the new key at the end, exactly as JS key ordering
behaves. -/
def objSet : List (String × JVal) → String → JVal → List (String × JVal)
| [], k, v => [(k, v)]
| (k', v') :: rest, k, v =>
    if k' == k then (k', v) :: rest else (k', v') :: objSet rest k v

/-- Escape of one character inside a JSON string literal, as produced by
`JSON.stringify` (the JSON codec is an external collaborator; we model
the escapes relevant to the library's error messages). -/
def jsonEscapeChar (c : Char) : String :=
  if c = Char.ofNat 34 then "\\\""
  else if c = '\\' then "\\\\"
  else if c = '\n' then "\\n"
  else if c = '\t' then "\\t"
  else if c = '\r' then "\\r"
  else String.singleton c

/-- Escape a whole string for inclusion in JSON output. -/
def jsonEscape (s : String) : String :=
  String.join (s.toList.map jsonEscapeChar)

/-- A JSON string literal: quotes around the escaped content. -/
def jsonStrLit (s : String) : String :=
  "\"" ++ jsonEscape s ++ "\""

mutual

/-- `JSON.stringify` on a modelled value (compact form, as used inside the
library's error messages).  `undefined` serializes to nothing (`none`),
NaN serializes to `null`. -/
def jsonStringify : JVal → Option String
| .undefined => none
| .null => some "null"
| .str s => some (jsonStrLit s)
| .num .nan => some "null"
| .num (.val n) => some (toString n)
| .bool b => some (if b then "true" else "false")
| .obj _ fs => some ("\x7b" ++ String.intercalate "," (jsonFieldStrings fs) ++ "\x7d")
| .arr _ es => some ("[" ++ String.intercalate "," (jsonElemStrings es) ++ "]")

/-- Serialized `"key":value` members of an object; keys whose value is
`undefined` are dropped, as `JSON.stringify` does. -/
def jsonFieldStrings : List (String × JVal) → List String
| [] => []
| (k, v) :: rest =>
    match jsonStringify v with
    | none => jsonFieldStrings rest
    | some sv => (jsonStrLit k ++ ":" ++ sv) :: jsonFieldStrings rest

/-- Serialized elements of an array; `undefined` elements print as
`null`, as `JSON.stringify` does. -/
def jsonElemStrings : List JVal → List String
| [] => []
| v :: rest => (jsonStringify v).getD "null" :: jsonElemStrings rest

end

/-- The text produced by interpolating `JSON.stringify(v)` into a template
literal: `undefined` prints as the string `undefined`. -/
def stringifyForMsg (v : JVal) : String :=
  (jsonStringify v).getD "undefined"

/-- `t.endsWith('?')`, modelled at the character-list level so that it
computes inside the kernel. -/
def strEndsWithQm (t : String) : Bool :=
  t.toList.getLast? == some '?'

/-- `t.slice(0, -1)`: the string without its final character. -/
def strSlice0m1 (t : String) : String :=
  String.mk t.toList.dropLast

/-- A schema definition as the library receives it: a raw JS value made of
type strings, field maps and (possibly malformed) array tuples. -/
inductive SchemaRaw
| prim (t : String)
| arrS (items : List SchemaRaw)
| objS (fields : List (String × SchemaRaw))
deriving Repr

/-- Message thrown by `isArraySchema` for a malformed array declaration. -/
def invalidArraySchemaMsg : String :=
  "Invalid array schema, required tuple length 1 declare schema type"

/-- `isArraySchema` from src/index.js: an array declaration must be a
one-element tuple; any other array is a schema-definition error; anything
that is not an array is simply not an array schema. -/
def isArraySchema : SchemaRaw → Except String Bool
| .arrS items =>
    if items.length == 1 then .ok true else .error invalidArraySchemaMsg
| _ => .ok false

mutual

/-- `createDefaultFromSchema` from src/index.js.  Arrays default to `[]`,
optional primitives to `undefined`, required primitives to their zero
value, objects recurse per field; fresh objects and arrays are created,
modelled with identity tag 0. -/
def createDefaultFromSchema : SchemaRaw → Except String JVal
| .arrS items =>
    -- isArraySchema(schema): throws on a malformed tuple, else this is
    -- an array schema and the default is a fresh empty array
    if items.length == 1 then .ok (.arr 0 [])
    else .error invalidArraySchemaMsg
| .prim t =>
    let isOptional := strEndsWithQm t
    let baseType := if isOptional then strSlice0m1 t else t
    if isOptional then .ok .undefined
    else if baseType == "string" then .ok (.str "")
    else if baseType == "number" then .ok (.num (.val 0))
    else if baseType == "boolean" then .ok (.bool false)
    else .ok .undefined  -- unknown base type: the switch falls through, the function returns undefined
| .objS fields => (createDefaultFields fields).map (.obj 0)

/-- The field loop of `createDefaultFromSchema`: `result[key] =
createDefaultFromSchema(type)` for each schema entry in order (note JS
assigns the key even when the default is `undefined`). -/
def createDefaultFields : List (String × SchemaRaw) → Except String (List (String × JVal))
| [] => .ok []
| (k, t) :: rest => do
    let v ← createDefaultFromSchema t
    let vs ← createDefaultFields rest
    .ok ((k, v) :: vs)

end

/-- The validation error message for a primitive type mismatch:
`Field '<path>' must be a <type>, got <actualType>: <JSONofValue>`. -/
def primErrMsg (path ty : String) (data : JVal) : String :=
  "Field '" ++ path ++ "' must be a " ++ ty ++ ", got " ++ jsTypeof data
    ++ ": " ++ stringifyForMsg data

mutual

/-- `validateAndCoerce` from src/index.js: checks and coerces `data`
against `schema`, accumulating `path` for error messages.  Array schemas
are checked first (a malformed tuple is a schema error regardless of the
data); primitive schemas auto-repair missing required values with the
type's zero value, leave missing optionals `undefined`, and reject
present values of the wrong runtime type (NaN is rejected for numbers);
object schemas require a truthy non-array object and rebuild a fresh
object containing exactly the schema's fields. -/
def validateAndCoerce (data : JVal) (schema : SchemaRaw) (path : String) :
    Except String JVal :=
  match schema with
  | .arrS items =>
      match items with
      | [itemSchema] =>
          match data with
          | .arr _ es => (validateElems es itemSchema path 0).map (.arr 0)
          | _ => .error ("Field '" ++ path ++ "' must be an array, got " ++ jsTypeof data)
      | _ => .error invalidArraySchemaMsg
  | .prim t =>
      let isOptional := strEndsWithQm t
      let baseType := if isOptional then strSlice0m1 t else t
      match data with
      | .undefined | .null =>
          if !isOptional then
            if baseType == "string" then .ok (.str "")
            else if baseType == "number" then .ok (.num (.val 0))
            else if baseType == "boolean" then .ok (.bool false)
            else .ok .undefined
          else .ok .undefined
      | _ =>
          if baseType == "string" then
            match data with
            | .str _ => .ok data
            | _ => .error (primErrMsg path "string" data)
          else if baseType == "number" then
            match data with
            | .num .nan => .error (primErrMsg path "number" data)
            | .num (.val _) => .ok data
            | _ => .error (primErrMsg path "number" data)
          else if baseType == "boolean" then
            match data with
            | .bool _ => .ok data
            | _ => .error (primErrMsg path "boolean" data)
          else .ok data  -- unknown base type: falls through the switch and returns the data unchanged
  | .objS sfields =>
      -- `!data || typeof data !== 'object' || Array.isArray(data)` is
      -- exactly "data is not a plain object" on modelled values
      match data with
      | .obj _ dfs => (validateFields dfs sfields path).map (.obj 0)
      | _ => .error ("Field '" ++ path ++ "' must be an object, got " ++ jsTypeof data)
termination_by (sizeOf schema, 0)

/-- The element loop of the array case: each element is validated against
the item schema with path `path[index]` (the surrounding catch rethrows
the same message unchanged). -/
def validateElems (es : List JVal) (itemSchema : SchemaRaw) (path : String)
    (idx : Nat) : Except String (List JVal) :=
  match es with
  | [] => .ok []
  | e :: rest => do
      let v ← validateAndCoerce e itemSchema (path ++ "[" ++ toString idx ++ "]")
      let vs ← validateElems rest itemSchema path (idx + 1)
      .ok (v :: vs)
termination_by (sizeOf itemSchema, es.length + 1)

/-- The field loop of the object case: for each schema entry the value at
that key (or `undefined`) is validated at path `path.key` (or bare `key`
when the path is empty) and written into the fresh result object. -/
def validateFields (dfs : List (String × JVal))
    (sfields : List (String × SchemaRaw)) (path : String) :
    Except String (List (String × JVal)) :=
  match sfields with
  | [] => .ok []
  | (key, t) :: rest => do
      let fieldPath := if path == "" then key else path ++ "." ++ key
      let v ← validateAndCoerce ((objGet dfs key).getD .undefined) t fieldPath
      let vs ← validateFields dfs rest path
      .ok ((key, v) :: vs)
termination_by (sizeOf sfields, 0)

end

mutual

/-- `updateObject` from src/index.js, acting on the field list of the
target object (the node's identity tag is managed by the caller, since
the JS function mutates the target in place).  First every target key
absent from the source is deleted; then each source entry is merged in:
nested plain objects recurse (preserving the target child's identity),
array/array pairs are cleared and repopulated (preserving the target
array's identity), anything else is assigned directly.  A `null` source
makes the JS recursion throw a TypeError (using `in`/`Object.entries` on
`null`), which the guards `typeof value === 'object' &&
!Array.isArray(value)` do admit. -/
def updateObject (tfs : List (String × JVal)) (source : JVal) :
    Except String (List (String × JVal)) :=
  match source with
  | .obj _ sfs =>
      -- for key of Object.keys(target): if (!(key in source)) delete target[key]
      let pruned := tfs.filter (fun kv => sfs.any (fun sv => sv.fst == kv.fst))
      updateEntries pruned sfs
  | _ => .error "TypeError: source must be an object"
termination_by (sizeOf source, 0)

/-- The `Object.entries(source)` loop of `updateObject`, folding over the
current state of the target's fields. -/
def updateEntries (acc : List (String × JVal)) (entries : List (String × JVal)) :
    Except String (List (String × JVal)) :=
  match entries with
  | [] => .ok acc
  | (key, value) :: rest =>
      let tv := (objGet acc key).getD .undefined
      -- isTargetObject := target[key] && typeof target[key] === 'object' && !Array.isArray(target[key])
      -- isSourceObject := typeof value === 'object' && !Array.isArray(value)
      match value with
      | .obj sid sfs =>
          match tv with
          | .obj tid tfs2 => do
              -- both plain objects: recurse in place, target child keeps its identity
              let m ← updateObject tfs2 (.obj sid sfs)
              updateEntries (objSet acc key (.obj tid m)) rest
          | _ =>
              -- direct assignment for primitives or new objects
              updateEntries (objSet acc key (.obj sid sfs)) rest
      | .null =>
          match tv with
          | .obj _ _ =>
              -- isTargetObject and isSourceObject both hold, and the
              -- recursive call `updateObject(target[key], null)` throws in JS
              .error "TypeError: source must be an object"
          | _ => updateEntries (objSet acc key .null) rest
      | .arr said ses =>
          match tv with
          | .arr tid _ =>
              -- both arrays: target[key].length = 0; target[key].push(...value)
              updateEntries (objSet acc key (.arr tid ses)) rest
          | _ => updateEntries (objSet acc key (.arr said ses)) rest
      | v =>
          -- direct assignment for primitives
          updateEntries (objSet acc key v) rest
termination_by (sizeOf entries, 1)

end

/-- `updateDataRef` from src/index.js: non-object data cannot be updated;
an object root is merged in place via `updateObject` when the new data is
a plain object too; an array root satisfies neither `isDataObject` nor
the merge guard, so nothing happens. -/
def updateDataRef (data newValidatedData : JVal) : Except String JVal :=
  match data with
  | .obj id tfs =>
      match newValidatedData with
      | .obj _ _ => (updateObject tfs newValidatedData).map (.obj id)
      | _ => .ok data
  | _ => .ok data

/-- `updateObjectRecursively` from the `StoredDataObject.from` revision;
its body is textually identical to `updateObject`. -/
def updateObjectRecursively : List (String × JVal) → JVal →
    Except String (List (String × JVal)) := updateObject

/-- `updateDataReference` from the `StoredDataObject.from` revision (the
one exposing the whole-array storage mode): an array root is cleared
(`data.length = 0`) and, when the validated value is an array, every one
of its elements is pushed in order — the array keeps its identity; an
object root is merged via `updateObjectRecursively`; other roots are left
alone. -/
def updateDataReference (data newValidatedData : JVal) : Except String JVal :=
  match data with
  | .arr id _ =>
      match newValidatedData with
      | .arr _ ses => .ok (.arr id ses)
      | _ => .ok (.arr id [])
  | .obj id _ =>
      match data with
      | .obj _ tfs =>
          match newValidatedData with
          | .obj _ _ => (updateObjectRecursively tfs newValidatedData).map (.obj id)
          | _ => .ok data
      | _ => .ok data
  | _ => .ok data

/-- The sequential file lock of src/helpers/file-lock.js.  Its only state
is the promise chain `this.queue`; we model the queue by the settled
outcome of that promise. -/
structure FileLock where
  queue : Except String Unit

/-- A fresh lock: `this.queue = Promise.resolve()`. -/
def FileLock.init : FileLock := ⟨.ok ()⟩

/-- `FileLock.run(task)` under the single-threaded cooperative scheduling
the library runs in.  A task is a state transformer together with its own
outcome.  `result = this.queue.then(task, err => throw err)`: the task
body runs once the queue has settled successfully, and `result` carries
the task's own outcome; if the queue had settled with an error the task
would not run and the error would be re-thrown.  `this.queue =
result.catch(() => ...)` always leaves the queue successfully settled, so
a failing task never poisons the queue.  Returns (new lock state, new
world state, the outcome delivered to this caller). -/
def FileLock.run {σ : Type} (lock : FileLock) (task : σ → σ × Except String Unit)
    (s : σ) : FileLock × σ × Except String Unit :=
  match lock.queue with
  | .ok _ =>
      let r := task s
      (⟨.ok ()⟩, r.1, r.2)
  | .error e => (⟨.ok ()⟩, s, .error e)

/-- Running a list of tasks submitted in order through the same lock,
threading the world state; returns the final lock and state and the list
of outcomes delivered to the respective callers. -/
def runTasks {σ : Type} (lock : FileLock) (tasks : List (σ → σ × Except String Unit))
    (s : σ) : FileLock × σ × List (Except String Unit) :=
  match tasks with
  | [] => (lock, s, [])
  | t :: rest =>
      let step := lock.run t s
      let restRun := runTasks step.1 rest step.2.1
      (restRun.1, restRun.2.1, step.2.2 :: restRun.2.2)

/-- The body of `write()` from src/index.js.  The persisted file is
modelled by the value whose serialization it holds (the JSON codec and
the filesystem are external collaborators): when `autoValidate` is set,
the current data is validated first and a failure aborts with
`Data validation failed before write: <cause>` without touching the file;
otherwise the file is overwritten with the serialized data. -/
def writeBody (autoValidate : Bool) (data : JVal) (schema : SchemaRaw)
    (file : Option JVal) : Option JVal × Except String Unit :=
  if autoValidate then
    match validateAndCoerce data schema "" with
    | .error e => (file, .error ("Data validation failed before write: " ++ e))
    | .ok _ => (some data, .ok ())
  else (some data, .ok ())

/-- `write()` itself: the body runs under the store's file lock. -/
def writeOp (lock : FileLock) (autoValidate : Bool) (data : JVal)
    (schema : SchemaRaw) (file : Option JVal) :
    FileLock × Option JVal × Except String Unit :=
  lock.run (writeBody autoValidate data schema) file

/-- A schema is well formed when every primitive leaf is one of the six
documented type strings, every array declaration is a one-element tuple,
and every object node has distinct field names (JS object literals cannot
repeat keys). -/
def nodupKeysB {α : Type} : List (String × α) → Bool
| [] => true
| (k, _) :: rest => !(rest.any (·.fst == k)) && nodupKeysB rest

mutual

/-- Well-formedness of a schema (see `nodupKeysB`). -/
def wellFormed : SchemaRaw → Bool
| .prim t =>
    t == "string" || t == "number" || t == "boolean" ||
    t == "string?" || t == "number?" || t == "boolean?"
| .arrS items =>
    match items with
    | [item] => wellFormed item
    | _ => false
| .objS fields => nodupKeysB fields && wellFormedFields fields

/-- Well-formedness of an object schema's field list. -/
def wellFormedFields : List (String × SchemaRaw) → Bool
| [] => true
| (_, t) :: rest => wellFormed t && wellFormedFields rest

end

mutual

/-- The representation invariant of values that exist as JS data: every
object node has distinct keys. -/
def nodupRec : JVal → Bool
| .obj _ fs => nodupKeysB fs && nodupRecFields fs
| .arr _ es => nodupRecElems es
| _ => true

/-- `nodupRec` over an object's field values. -/
def nodupRecFields : List (String × JVal) → Bool
| [] => true
| (_, v) :: rest => nodupRec v && nodupRecFields rest

/-- `nodupRec` over an array's elements. -/
def nodupRecElems : List JVal → Bool
| [] => true
| v :: rest => nodupRec v && nodupRecElems rest

end

mutual

/-- No `null` occurs anywhere in the value (validated data never contains
`null`: required primitives are repaired to zero values and optional ones
to `undefined`). -/
def noNull : JVal → Bool
| .null => false
| .obj _ fs => noNullFields fs
| .arr _ es => noNullElems es
| _ => true

/-- `noNull` over an object's field values. -/
def noNullFields : List (String × JVal) → Bool
| [] => true
| (_, v) :: rest => noNull v && noNullFields rest

/-- `noNull` over an array's elements. -/
def noNullElems : List JVal → Bool
| [] => true
| v :: rest => noNull v && noNullElems rest

end

/-- A value as produced by successful validation: no `null` anywhere and
unique keys in every object node. -/
def goodVal (v : JVal) : Bool := noNull v && nodupRec v

mutual

/-- Deep (structural) equality of two modelled values, ignoring identity
tags; objects are compared by key lookup, so key order is irrelevant. -/
def deepEq : JVal → JVal → Bool
| .undefined, .undefined => true
| .null, .null => true
| .str s, .str s' => s == s'
| .num n, .num n' => n == n'
| .bool b, .bool b' => b == b'
| .obj _ fs, .obj _ gs =>
    fs.all (fun kv => gs.any (·.fst == kv.fst)) && deepEqFields fs gs
| .arr _ es, .arr _ es' => deepEqElems es es'
| _, _ => false

/-- Each binding of `gs` must be matched, via lookup, by a deep-equal
binding of `fs`. -/
def deepEqFields (fs : List (String × JVal)) : List (String × JVal) → Bool
| [] => true
| (k, v) :: rest =>
    (match objGet fs k with
     | some w => deepEq w v
     | none => false) && deepEqFields fs rest

/-- Pointwise deep equality of array elements. -/
def deepEqElems : List JVal → List JVal → Bool
| [], [] => true
| e :: es, e' :: es' => deepEq e e' && deepEqElems es es'
| _, _ => false

end

/-- The per-key outcome of one `updateObject` pass: given the target's
previous binding for a key and the source value at that key, the merged
binding either recursively merges two plain objects (keeping the target
child's identity tag), clears and repopulates a pair of arrays (keeping
the target array's tag), or is the source value assigned directly. -/
def mergedSlot (told : Option JVal) (v : JVal) (mv : Option JVal) : Prop :=
  match v, told with
  | .obj sid sfs2, some (.obj tid tfs2) =>
      ∃ m2, updateObject tfs2 (.obj sid sfs2) = .ok m2 ∧ mv = some (.obj tid m2)
  | .arr _ ses, some (.arr tid _) => mv = some (.arr tid ses)
  | _, _ => mv = some v

/-- Follow a key path through plain-object fields. -/
def getPathV : JVal → List String → Option JVal
| v, [] => some v
| .obj _ fs, k :: ks =>
    match objGet fs k with
    | some w => getPathV w ks
    | none => none
| _, _ :: _ => none

/-! ## Helper lemmas -/

theorem strEnds_string : strEndsWithQm "string" = false := rfl

theorem strEnds_number : strEndsWithQm "number" = false := rfl

theorem strEnds_boolean : strEndsWithQm "boolean" = false := rfl

theorem strEnds_stringQ : strEndsWithQm "string?" = true := rfl

theorem strEnds_numberQ : strEndsWithQm "number?" = true := rfl

theorem strEnds_booleanQ : strEndsWithQm "boolean?" = true := rfl

theorem strSlice_stringQ : strSlice0m1 "string?" = "string" := rfl

theorem strSlice_numberQ : strSlice0m1 "number?" = "number" := rfl

theorem strSlice_booleanQ : strSlice0m1 "boolean?" = "boolean" := rfl

theorem objGet_eq_of_nodup {fs : List (String × JVal)} {k : String} {v : JVal}
    (hnd : nodupKeysB fs = true) (hm : (k, v) ∈ fs) : objGet fs k = some v := by
  induction fs with
  | nil => cases hm
  | cons hd tl ih =>
    obtain ⟨k', v'⟩ := hd
    simp only [nodupKeysB, Bool.and_eq_true, Bool.not_eq_true', List.any_eq_false] at hnd
    rcases List.mem_cons.mp hm with h | h
    · cases h
      simp [objGet]
    · have h1 : (k = k') = False := by
        simpa using hnd.1 (k, v) h
      have h2 : k' ≠ k := fun hkk => by simp [hkk] at h1
      simp [objGet, h2, ih hnd.2 h]

theorem nodupRecFields_mem {fs : List (String × JVal)} {k : String} {w : JVal}
    (h : nodupRecFields fs = true) (hm : (k, w) ∈ fs) : nodupRec w = true := by
  induction fs with
  | nil => cases hm
  | cons hd tl ih =>
    obtain ⟨k', v'⟩ := hd
    simp only [nodupRecFields, Bool.and_eq_true] at h
    rcases List.mem_cons.mp hm with hh | hh
    · cases hh; exact h.1
    · exact ih h.2 hh

theorem nodupRecElems_mem {es : List JVal} {w : JVal}
    (h : nodupRecElems es = true) (hm : w ∈ es) : nodupRec w = true := by
  induction es with
  | nil => cases hm
  | cons hd tl ih =>
    simp only [nodupRecElems, Bool.and_eq_true] at h
    rcases List.mem_cons.mp hm with hh | hh
    · cases hh; exact h.1
    · exact ih h.2 hh

theorem noNullFields_mem {fs : List (String × JVal)} {k : String} {w : JVal}
    (h : noNullFields fs = true) (hm : (k, w) ∈ fs) : noNull w = true := by
  induction fs with
  | nil => cases hm
  | cons hd tl ih =>
    obtain ⟨k', v'⟩ := hd
    simp only [noNullFields, Bool.and_eq_true] at h
    rcases List.mem_cons.mp hm with hh | hh
    · cases hh; exact h.1
    · exact ih h.2 hh

theorem noNullElems_mem {es : List JVal} {w : JVal}
    (h : noNullElems es = true) (hm : w ∈ es) : noNull w = true := by
  induction es with
  | nil => cases hm
  | cons hd tl ih =>
    simp only [noNullElems, Bool.and_eq_true] at h
    rcases List.mem_cons.mp hm with hh | hh
    · cases hh; exact h.1
    · exact ih h.2 hh

mutual

theorem deepEq_refl (v : JVal) (h : nodupRec v = true) : deepEq v v = true := by
  match v with
  | .undefined | .null => simp [deepEq]
  | .str s => simp [deepEq]
  | .num n => simp [deepEq]
  | .bool b => simp [deepEq]
  | .obj id fs =>
    simp only [nodupRec, Bool.and_eq_true] at h
    simp only [deepEq, Bool.and_eq_true]
    constructor
    · rw [List.all_eq_true]
      intro kv hkv
      rw [List.any_eq_true]
      exact ⟨kv, hkv, by simp⟩
    · exact deepEqFields_refl fs fs h.1
        (fun k w hm => objGet_eq_of_nodup h.1 hm)
        (fun k w hm => nodupRecFields_mem h.2 hm)
  | .arr id es =>
    simp only [nodupRec] at h
    simp only [deepEq]
    exact deepEqElems_refl es h
termination_by (sizeOf v, 0)

theorem deepEqFields_refl (fs gs : List (String × JVal)) (hnd : nodupKeysB fs = true)
    (hget : ∀ k w, (k, w) ∈ gs → objGet fs k = some w)
    (hval : ∀ k w, (k, w) ∈ gs → nodupRec w = true) : deepEqFields fs gs = true := by
  match gs with
  | [] => simp [deepEqFields]
  | (k, w) :: rest =>
    simp only [deepEqFields, Bool.and_eq_true]
    refine ⟨?_, ?_⟩
    · rw [hget k w (by simp)]
      exact deepEq_refl w (hval k w (by simp))
    · exact deepEqFields_refl fs rest hnd
        (fun k' w' hm => hget k' w' (List.mem_cons_of_mem _ hm))
        (fun k' w' hm => hval k' w' (List.mem_cons_of_mem _ hm))
termination_by (sizeOf gs, 1)

theorem deepEqElems_refl (es : List JVal) (h : nodupRecElems es = true) :
    deepEqElems es es = true := by
  match es with
  | [] => simp [deepEqElems]
  | e :: rest =>
    simp only [nodupRecElems, Bool.and_eq_true] at h
    simp only [deepEqElems, Bool.and_eq_true]
    exact ⟨deepEq_refl e h.1, deepEqElems_refl rest h.2⟩
termination_by (sizeOf es, 1)

end

/-! ## Claim theorems -/

/-- Claim C1: for a store whose root data is an array (the whole-array
storage mode of the `StoredDataObject.from` revision), applying freshly
validated array content via `updateDataReference` clears the live array
and appends every element of the source in order: the result keeps the
data array's identity `i` and holds exactly the validated elements, and
its content deep-equals the validated content. -/
theorem reloadArrayRoot_mergesInPlace (i j : Nat) (es ses : List JVal) :
    updateDataReference (.arr i es) (.arr j ses) = .ok (.arr i ses) ∧
    (nodupRecElems ses = true → deepEq (.arr i ses) (.arr j ses) = true) := by
  constructor
  · simp [updateDataReference]
  · intro h
    simp only [deepEq]
    exact deepEqElems_refl ses h

/-- Witness for C1 at a concrete store: a two-element validated array
replaces a one-element live array in place. -/
theorem reloadArrayRoot_mergesInPlace_witness :
    updateDataReference (.arr 3 [.num (.val 9)]) (.arr 8 [.str "a", .bool true])
      = .ok (.arr 3 [.str "a", .bool true]) ∧
    deepEq (.arr 3 [.str "a", .bool true]) (.arr 8 [.str "a", .bool true]) = true := by
  refine ⟨(reloadArrayRoot_mergesInPlace 3 8 [.num (.val 9)] [.str "a", .bool true]).1, ?_⟩
  exact (reloadArrayRoot_mergesInPlace 3 8 [.num (.val 9)] [.str "a", .bool true]).2
    (by simp [nodupRecElems, nodupRec])

/-- Claim C6: a required primitive with a missing (`undefined`/`null`)
input is repaired to the type's zero value without error; an optional
primitive with a missing input is left `undefined` without error. -/
theorem missingPrimitives_repairedOrAbsent (path : String) :
    validateAndCoerce .undefined (.prim "string") path = .ok (.str "") ∧
    validateAndCoerce .null (.prim "string") path = .ok (.str "") ∧
    validateAndCoerce .undefined (.prim "number") path = .ok (.num (.val 0)) ∧
    validateAndCoerce .null (.prim "number") path = .ok (.num (.val 0)) ∧
    validateAndCoerce .undefined (.prim "boolean") path = .ok (.bool false) ∧
    validateAndCoerce .null (.prim "boolean") path = .ok (.bool false) ∧
    validateAndCoerce .undefined (.prim "string?") path = .ok .undefined ∧
    validateAndCoerce .null (.prim "string?") path = .ok .undefined ∧
    validateAndCoerce .undefined (.prim "number?") path = .ok .undefined ∧
    validateAndCoerce .null (.prim "number?") path = .ok .undefined ∧
    validateAndCoerce .undefined (.prim "boolean?") path = .ok .undefined ∧
    validateAndCoerce .null (.prim "boolean?") path = .ok .undefined := by
  refine ⟨?_, ?_, ?_, ?_, ?_, ?_, ?_, ?_, ?_, ?_, ?_, ?_⟩ <;>
    simp [validateAndCoerce, strEndsWithQm, strSlice0m1]

/-- Claim C10: a NaN input under a `number` or `number?` schema node is
rejected with the `must be a number` message even though its runtime type
is `number` (and `JSON.stringify(NaN)` renders as `null` in the message). -/
theorem nanRejectedAsNumber (path : String) :
    validateAndCoerce (.num .nan) (.prim "number") path
      = .error ("Field '" ++ path ++ "' must be a number, got number: null") ∧
    validateAndCoerce (.num .nan) (.prim "number?") path
      = .error ("Field '" ++ path ++ "' must be a number, got number: null") := by
  constructor <;>
    simp [validateAndCoerce, primErrMsg, stringifyForMsg, jsonStringify, jsTypeof,
          strEndsWithQm, strSlice0m1, String.append_assoc]

/-- Claim C5: a present primitive value of the wrong runtime type is
rejected with `Field '<path>' must be a <type>, got <actualType>:
<JSONofValue>` (for both required and optional nodes); in particular
schema `(age : number)` with input `(age : "25")` fails naming the field,
the expected and actual types, and the offending value. -/
theorem typeMismatchRejected :
    (∀ (data : JVal) (path : String), isPresentVal data = true →
      (jsTypeof data ≠ "string" →
        validateAndCoerce data (.prim "string") path = .error (primErrMsg path "string" data) ∧
        validateAndCoerce data (.prim "string?") path = .error (primErrMsg path "string" data)) ∧
      (jsTypeof data ≠ "number" →
        validateAndCoerce data (.prim "number") path = .error (primErrMsg path "number" data) ∧
        validateAndCoerce data (.prim "number?") path = .error (primErrMsg path "number" data)) ∧
      (jsTypeof data ≠ "boolean" →
        validateAndCoerce data (.prim "boolean") path = .error (primErrMsg path "boolean" data) ∧
        validateAndCoerce data (.prim "boolean?") path = .error (primErrMsg path "boolean" data))) ∧
    validateAndCoerce (.obj 7 [("age", .str "25")]) (.objS [("age", .prim "number")]) ""
      = .error "Field 'age' must be a number, got string: \"25\"" := by
  constructor
  · intro data path hp
    cases data with
    | undefined => simp [isPresentVal] at hp
    | null => simp [isPresentVal] at hp
    | num n =>
        cases n <;> simp [jsTypeof, validateAndCoerce, strEndsWithQm, strSlice0m1]
    | _ => simp [jsTypeof, validateAndCoerce, strEndsWithQm, strSlice0m1]
  · simp [validateAndCoerce, validateFields, primErrMsg, stringifyForMsg, jsonStringify,
          jsTypeof, objGet, jsonStrLit, jsonEscape, jsonEscapeChar, strEndsWithQm,
          strSlice0m1, String.append_assoc, Except.map, Except.bind, bind]
    decide

/-- Witness for C5: a string where a number is required is rejected with
the exact mismatch message. -/
theorem typeMismatchRejected_witness :
    validateAndCoerce (.str "25") (.prim "number") "age"
      = .error (primErrMsg "age" "number" (.str "25")) :=
  ((typeMismatchRejected.1 (.str "25") "age" rfl).2.1 (by decide)).1

/-- Claim C7: tasks submitted to one file lock in order 1..N execute
their bodies one at a time in submission order (the promise chain starts
each task only after the previous one has settled), every caller of
`run` receives its own task's outcome — including failures — and a
failed task does not prevent any later task from executing, because the
queue's advancing edge swallows the failure. -/
theorem lockRunsTasksFIFO {σ : Type} (specs : List ((σ → σ) × Except String Unit)) (s : σ) :
    runTasks FileLock.init (specs.map (fun p => fun st => (p.1 st, p.2))) s
      = (FileLock.init, specs.foldl (fun st p => p.1 st) s, specs.map Prod.snd) := by
  induction specs generalizing s with
  | nil => simp [runTasks]
  | cons hd tl ih =>
    simp only [runTasks, List.map]
    rw [show FileLock.run FileLock.init (fun st => (hd.1 st, hd.2)) s
        = (FileLock.init, hd.1 s, hd.2) from rfl]
    simp [ih]

/-- Claim C8: with `autoValidate` enabled, `write()` on data that fails
validation rejects with `Data validation failed before write: <cause>`
and leaves the file untouched; only when validation of the current data
succeeds is the file overwritten (with the serialized data). -/
theorem writeValidatesBeforeTouchingFile (data : JVal) (schema : SchemaRaw) (file : Option JVal) :
    (∀ e, validateAndCoerce data schema "" = .error e →
      writeOp FileLock.init true data schema file
        = (FileLock.init, file, .error ("Data validation failed before write: " ++ e))) ∧
    (∀ r, validateAndCoerce data schema "" = .ok r →
      writeOp FileLock.init true data schema file
        = (FileLock.init, some data, .ok ())) := by
  constructor
  · intro e he
    simp [writeOp, FileLock.run, FileLock.init, writeBody, he]
  · intro r hr
    simp [writeOp, FileLock.run, FileLock.init, writeBody, hr]

/-- Witness for C8: writing `(age : "25")` under schema `(age : number)`
rejects with the full message and the file keeps its previous content. -/
theorem writeValidatesBeforeTouchingFile_witness :
    writeOp FileLock.init true (.obj 7 [("age", .str "25")])
        (.objS [("age", .prim "number")]) (some (.num (.val 1)))
      = (FileLock.init, some (.num (.val 1)),
          .error "Data validation failed before write: Field 'age' must be a number, got string: \"25\"") := by
  have h := (writeValidatesBeforeTouchingFile (.obj 7 [("age", .str "25")])
      (.objS [("age", .prim "number")]) (some (.num (.val 1)))).1
    "Field 'age' must be a number, got string: \"25\"" typeMismatchRejected.2
  rw [h]
  have hs : "Data validation failed before write: "
        ++ "Field 'age' must be a number, got string: \"25\""
      = "Data validation failed before write: Field 'age' must be a number, got string: \"25\"" := by
    decide
  rw [hs]

/-- Counterexample to claim C9 as stated: the schema
`(a : [[ ]])` contains an array-type declaration with zero elements (the
inner `[]`), yet neither `createDefaultFromSchema` nor `validateAndCoerce`
fails on it — `createDefaultFromSchema` never descends into the item
schema of a well-formed one-element declaration, and `validateAndCoerce`
visits the item schema only once per element of the input array, so an
empty input array sails through. -/
theorem malformedArraySchema_canEscapeDetection :
    createDefaultFromSchema (.objS [("a", .arrS [.arrS []])])
      = .ok (.obj 0 [("a", .arr 0 [])]) ∧
    validateAndCoerce (.obj 9 [("a", .arr 5 [])]) (.objS [("a", .arrS [.arrS []])]) ""
      = .ok (.obj 0 [("a", .arr 0 [])]) := by
  constructor <;>
    simp [createDefaultFromSchema, createDefaultFields, validateAndCoerce, validateFields,
          validateElems, objGet, Except.map, Except.bind, bind]

/-- Claim C9 (amended): a malformed array declaration is rejected exactly
when the node is inspected.  When the declaration itself is the schema
node being processed, `isArraySchema`, `createDefaultFromSchema` and
`validateAndCoerce` all fail immediately with the schema-definition
error, independent of any input value; a one-element declaration is
accepted and denotes a homogeneous sequence of the item shape (defaulting
to an empty array and validating arrays elementwise against the item
schema). -/
theorem malformedArraySchema_rejectedWhenInspected :
    (∀ (items : List SchemaRaw) (data : JVal) (path : String), items.length ≠ 1 →
      isArraySchema (.arrS items) = .error invalidArraySchemaMsg ∧
      createDefaultFromSchema (.arrS items) = .error invalidArraySchemaMsg ∧
      validateAndCoerce data (.arrS items) path = .error invalidArraySchemaMsg) ∧
    (∀ (item : SchemaRaw), isArraySchema (.arrS [item]) = .ok true ∧
      createDefaultFromSchema (.arrS [item]) = .ok (.arr 0 []) ∧
      ∀ (id : Nat) (es : List JVal) (path : String),
        validateAndCoerce (.arr id es) (.arrS [item]) path
          = (validateElems es item path 0).map (.arr 0)) := by
  constructor
  · intro items data path h
    rcases items with _ | ⟨a, _ | ⟨b, rest⟩⟩
    · simp [isArraySchema, createDefaultFromSchema, validateAndCoerce]
    · simp at h
    · refine ⟨?_, ?_, ?_⟩
      · simp [isArraySchema]
      · simp [createDefaultFromSchema]
      · simp [validateAndCoerce]
  · intro item
    refine ⟨?_, ?_, ?_⟩
    · simp [isArraySchema]
    · simp [createDefaultFromSchema]
    · intro id es path
      simp [validateAndCoerce]

/-- Witness for the amended C9: the empty tuple `[]` is rejected by all
three schema inspections, whatever the input. -/
theorem malformedArraySchema_rejectedWhenInspected_witness :
    isArraySchema (.arrS []) = .error invalidArraySchemaMsg ∧
    createDefaultFromSchema (.arrS []) = .error invalidArraySchemaMsg ∧
    validateAndCoerce (.num (.val 3)) (.arrS []) "" = .error invalidArraySchemaMsg :=
  malformedArraySchema_rejectedWhenInspected.1 [] (.num (.val 3)) "" (by decide)

/-! ## Validator lemmas -/

theorem except_bind_ok {ε α β : Type} (x : Except ε α) (f : α → Except ε β) (b : β) :
    (x >>= f) = Except.ok b ↔ ∃ a, x = Except.ok a ∧ f a = Except.ok b := by
  cases x <;> simp [Bind.bind, Except.bind]

theorem except_map_ok {ε α β : Type} (x : Except ε α) (f : α → β) (b : β) :
    Except.map f x = Except.ok b ↔ ∃ a, x = Except.ok a ∧ b = f a := by
  cases x <;> simp [Except.map] <;> exact ⟨fun h => h.symm, fun h => h.symm⟩

theorem createDefaultFields_keys :
    ∀ (fields : List (String × SchemaRaw)) (dfs : List (String × JVal)),
      createDefaultFields fields = .ok dfs → dfs.map Prod.fst = fields.map Prod.fst := by
  intro fields
  induction fields with
  | nil =>
    intro dfs h
    simp [createDefaultFields] at h
    simp [← h]
  | cons hd rest ih =>
    intro dfs h
    obtain ⟨k, t⟩ := hd
    simp only [createDefaultFields] at h
    rw [except_bind_ok] at h
    obtain ⟨v, hv, h⟩ := h
    rw [except_bind_ok] at h
    obtain ⟨vs, hvs, h⟩ := h
    simp at h
    subst h
    simp [ih vs hvs]

theorem validateFields_keys :
    ∀ (sfields : List (String × SchemaRaw)) (dfs rfs : List (String × JVal)) (p : String),
      validateFields dfs sfields p = .ok rfs → rfs.map Prod.fst = sfields.map Prod.fst := by
  intro sfields
  induction sfields with
  | nil =>
    intro dfs rfs p h
    simp [validateFields] at h
    simp [← h]
  | cons hd rest ih =>
    intro dfs rfs p h
    obtain ⟨key, t⟩ := hd
    simp only [validateFields] at h
    rw [except_bind_ok] at h
    obtain ⟨v, hv, h⟩ := h
    rw [except_bind_ok] at h
    obtain ⟨vs, hvs, h⟩ := h
    simp at h
    subst h
    simp [ih dfs vs p hvs]

theorem validateFields_congr (d1 d2 : List (String × JVal)) (p : String) :
    ∀ (sf : List (String × SchemaRaw)),
      (∀ k t, (k, t) ∈ sf → objGet d1 k = objGet d2 k) →
      validateFields d1 sf p = validateFields d2 sf p := by
  intro sf
  induction sf with
  | nil => intro h; simp [validateFields]
  | cons hd rest ih =>
    intro h
    obtain ⟨key, t⟩ := hd
    simp only [validateFields]
    rw [h key t (by simp)]
    simp only [ih (fun k' t' hm => h k' t' (List.mem_cons_of_mem _ hm))]

mutual

theorem validate_idem (v : JVal) (s : SchemaRaw) (p p' : String) (r : JVal)
    (hwf : wellFormed s = true) (h : validateAndCoerce v s p = .ok r) :
    validateAndCoerce r s p' = .ok r := by
  match s with
  | .prim t =>
    simp only [wellFormed, Bool.or_eq_true, beq_iff_eq] at hwf
    rcases hwf with ((((h6 | h6) | h6) | h6) | h6) | h6 <;> subst h6 <;>
    cases v with
    | num n =>
      cases n <;>
        first
        | (simp [validateAndCoerce, strEndsWithQm, strSlice0m1] at h
           subst h
           simp [validateAndCoerce, strEndsWithQm, strSlice0m1])
        | simp [validateAndCoerce, strEndsWithQm, strSlice0m1] at h
    | _ =>
      first
      | (simp [validateAndCoerce, strEndsWithQm, strSlice0m1] at h
         subst h
         simp [validateAndCoerce, strEndsWithQm, strSlice0m1])
      | simp [validateAndCoerce, strEndsWithQm, strSlice0m1] at h
  | .arrS items =>
    match items, hwf with
    | [item], hwf =>
      have hwfi : wellFormed item = true := by
        simpa [wellFormed] using hwf
      cases v with
      | arr id es =>
        simp only [validateAndCoerce] at h
        rw [except_map_ok] at h
        obtain ⟨rs, hrs, hre⟩ := h
        subst hre
        simp only [validateAndCoerce]
        rw [except_map_ok]
        exact ⟨rs, validateElems_idem es item p p' 0 0 rs hwfi hrs, rfl⟩
      | _ => simp [validateAndCoerce] at h
  | .objS sfields =>
    have hnd : nodupKeysB sfields = true := by
      simp only [wellFormed, Bool.and_eq_true] at hwf
      exact hwf.1
    have hwff : wellFormedFields sfields = true := by
      simp only [wellFormed, Bool.and_eq_true] at hwf
      exact hwf.2
    cases v with
    | obj id dfs =>
      simp only [validateAndCoerce] at h
      rw [except_map_ok] at h
      obtain ⟨rfs, hrfs, hre⟩ := h
      subst hre
      simp only [validateAndCoerce]
      rw [except_map_ok]
      exact ⟨rfs, validateFields_idem dfs sfields p p' rfs hnd hwff hrfs, rfl⟩
    | _ => simp [validateAndCoerce] at h
termination_by (sizeOf s, 0)

theorem validateElems_idem (es : List JVal) (item : SchemaRaw) (p p' : String)
    (i i' : Nat) (rs : List JVal) (hwf : wellFormed item = true)
    (h : validateElems es item p i = .ok rs) : validateElems rs item p' i' = .ok rs := by
  match es with
  | [] =>
    simp [validateElems] at h
    subst h
    simp [validateElems]
  | e :: rest =>
    simp only [validateElems] at h
    rw [except_bind_ok] at h
    obtain ⟨w, hw, h⟩ := h
    rw [except_bind_ok] at h
    obtain ⟨ws, hws, h⟩ := h
    simp at h
    subst h
    simp only [validateElems]
    rw [except_bind_ok]
    refine ⟨w, validate_idem e item _ _ w hwf hw, ?_⟩
    rw [except_bind_ok]
    exact ⟨ws, validateElems_idem rest item p p' (i + 1) (i' + 1) ws hwf hws, by simp⟩
termination_by (sizeOf item, es.length + 1)

theorem validateFields_idem (dfs : List (String × JVal))
    (sfields : List (String × SchemaRaw)) (p p' : String)
    (rfs : List (String × JVal)) (hnd : nodupKeysB sfields = true)
    (hwf : wellFormedFields sfields = true)
    (h : validateFields dfs sfields p = .ok rfs) :
    validateFields rfs sfields p' = .ok rfs := by
  match sfields with
  | [] =>
    simp [validateFields] at h
    subst h
    simp [validateFields]
  | (key, t) :: rest =>
    simp only [nodupKeysB, Bool.and_eq_true, Bool.not_eq_true', List.any_eq_false] at hnd
    simp only [wellFormedFields, Bool.and_eq_true] at hwf
    simp only [validateFields] at h
    rw [except_bind_ok] at h
    obtain ⟨v, hv, h⟩ := h
    rw [except_bind_ok] at h
    obtain ⟨vs, hvs, h⟩ := h
    simp at h
    subst h
    simp only [validateFields]
    rw [except_bind_ok]
    refine ⟨v, ?_, ?_⟩
    · have hget : objGet ((key, v) :: vs) key = some v := by simp [objGet]
      rw [hget]
      exact validate_idem ((objGet dfs key).getD .undefined) t _ _ v hwf.1 hv
    · rw [except_bind_ok]
      refine ⟨vs, ?_, by simp⟩
      have hcongr : validateFields ((key, v) :: vs) rest p' = validateFields vs rest p' := by
        apply validateFields_congr
        intro k' t' hm
        have hne : (k' == key) = false := by simpa using hnd.1 (k', t') hm
        have hne2 : key ≠ k' := by
          intro hkk
          subst hkk
          simp at hne
        simp [objGet, hne2]
      rw [hcongr]
      exact validateFields_idem dfs rest p p' vs hnd.2 hwf.2 hvs
termination_by (sizeOf sfields, 0)

end

theorem anyKey_congr {α β : Type} (k : String) :
    ∀ (xs : List (String × α)) (ys : List (String × β)),
      xs.map Prod.fst = ys.map Prod.fst →
      (xs.any (·.fst == k)) = (ys.any (·.fst == k)) := by
  intro xs
  induction xs with
  | nil =>
    intro ys h
    cases ys with
    | nil => rfl
    | cons hd tl => simp at h
  | cons hd tl ih =>
    intro ys h
    cases ys with
    | nil => simp at h
    | cons hd2 tl2 =>
      simp at h
      simp [List.any_cons, h.1, ih tl2 h.2]

theorem nodupKeysB_congr {α β : Type} :
    ∀ (xs : List (String × α)) (ys : List (String × β)),
      xs.map Prod.fst = ys.map Prod.fst → nodupKeysB xs = true → nodupKeysB ys = true := by
  intro xs
  induction xs with
  | nil =>
    intro ys h _
    cases ys with
    | nil => simp [nodupKeysB]
    | cons hd tl => simp at h
  | cons hd tl ih =>
    intro ys h hnd
    cases ys with
    | nil => simp at h
    | cons hd2 tl2 =>
      obtain ⟨k, a⟩ := hd
      obtain ⟨k2, b⟩ := hd2
      simp at h
      obtain ⟨hk, htl⟩ := h
      subst hk
      simp only [nodupKeysB, Bool.and_eq_true, Bool.not_eq_true'] at hnd ⊢
      exact ⟨by rw [← anyKey_congr k tl tl2 htl]; exact hnd.1, ih tl2 htl hnd.2⟩

mutual

theorem validate_good (v : JVal) (s : SchemaRaw) (p : String) (r : JVal)
    (hwf : wellFormed s = true) (h : validateAndCoerce v s p = .ok r) :
    noNull r = true ∧ nodupRec r = true := by
  match s with
  | .prim t =>
    simp only [wellFormed, Bool.or_eq_true, beq_iff_eq] at hwf
    rcases hwf with ((((h6 | h6) | h6) | h6) | h6) | h6 <;> subst h6 <;>
    cases v with
    | num n =>
      cases n <;>
        first
        | (simp [validateAndCoerce, strEndsWithQm, strSlice0m1] at h
           subst h
           simp [noNull, nodupRec])
        | simp [validateAndCoerce, strEndsWithQm, strSlice0m1] at h
    | _ =>
      first
      | (simp [validateAndCoerce, strEndsWithQm, strSlice0m1] at h
         subst h
         simp [noNull, nodupRec])
      | simp [validateAndCoerce, strEndsWithQm, strSlice0m1] at h
  | .arrS items =>
    match items, hwf with
    | [item], hwf =>
      have hwfi : wellFormed item = true := by
        simpa [wellFormed] using hwf
      cases v with
      | arr id es =>
        simp only [validateAndCoerce] at h
        rw [except_map_ok] at h
        obtain ⟨rs, hrs, hre⟩ := h
        subst hre
        have := validateElems_good es item p 0 rs hwfi hrs
        simp [noNull, nodupRec, this.1, this.2]
      | _ => simp [validateAndCoerce] at h
  | .objS sfields =>
    have hnd : nodupKeysB sfields = true := by
      simp only [wellFormed, Bool.and_eq_true] at hwf
      exact hwf.1
    have hwff : wellFormedFields sfields = true := by
      simp only [wellFormed, Bool.and_eq_true] at hwf
      exact hwf.2
    cases v with
    | obj id dfs =>
      simp only [validateAndCoerce] at h
      rw [except_map_ok] at h
      obtain ⟨rfs, hrfs, hre⟩ := h
      subst hre
      have := validateFields_good dfs sfields p rfs hnd hwff hrfs
      simp [noNull, nodupRec, this.1, this.2.1, this.2.2]
    | _ => simp [validateAndCoerce] at h
termination_by (sizeOf s, 0)

theorem validateElems_good (es : List JVal) (item : SchemaRaw) (p : String)
    (i : Nat) (rs : List JVal) (hwf : wellFormed item = true)
    (h : validateElems es item p i = .ok rs) :
    noNullElems rs = true ∧ nodupRecElems rs = true := by
  match es with
  | [] =>
    simp [validateElems] at h
    subst h
    simp [noNullElems, nodupRecElems]
  | e :: rest =>
    simp only [validateElems] at h
    rw [except_bind_ok] at h
    obtain ⟨w, hw, h⟩ := h
    rw [except_bind_ok] at h
    obtain ⟨ws, hws, h⟩ := h
    simp at h
    subst h
    have h1 := validate_good e item _ w hwf hw
    have h2 := validateElems_good rest item p (i + 1) ws hwf hws
    simp [noNullElems, nodupRecElems, h1.1, h1.2, h2.1, h2.2]
termination_by (sizeOf item, es.length + 1)

theorem validateFields_good (dfs : List (String × JVal))
    (sfields : List (String × SchemaRaw)) (p : String)
    (rfs : List (String × JVal)) (hnd : nodupKeysB sfields = true)
    (hwf : wellFormedFields sfields = true)
    (h : validateFields dfs sfields p = .ok rfs) :
    noNullFields rfs = true ∧ nodupRecFields rfs = true ∧ nodupKeysB rfs = true := by
  match sfields with
  | [] =>
    simp [validateFields] at h
    subst h
    simp [noNullFields, nodupRecFields, nodupKeysB]
  | (key, t) :: rest =>
    have hnd2 : nodupKeysB rest = true := by
      simp only [nodupKeysB, Bool.and_eq_true] at hnd
      exact hnd.2
    have hkeyout : (rest.any (·.fst == key)) = false := by
      simp only [nodupKeysB, Bool.and_eq_true, Bool.not_eq_true'] at hnd
      exact hnd.1
    simp only [wellFormedFields, Bool.and_eq_true] at hwf
    simp only [validateFields] at h
    rw [except_bind_ok] at h
    obtain ⟨v, hv, h⟩ := h
    rw [except_bind_ok] at h
    obtain ⟨vs, hvs, h⟩ := h
    simp at h
    subst h
    have h1 := validate_good ((objGet dfs key).getD .undefined) t _ v hwf.1 hv
    have h2 := validateFields_good dfs rest p vs hnd2 hwf.2 hvs
    refine ⟨?_, ?_, ?_⟩
    · simp [noNullFields, h1.1, h2.1]
    · simp [nodupRecFields, h1.2, h2.2.1]
    · have hkeys : vs.map Prod.fst = rest.map Prod.fst := validateFields_keys rest dfs vs p hvs
      have hany : (vs.any (·.fst == key)) = false := by
        rw [anyKey_congr key vs rest hkeys]
        exact hkeyout
      simp [nodupKeysB, hany, h2.2.2]
termination_by (sizeOf sfields, 0)

end

mutual

theorem default_valid (s : SchemaRaw) (p : String) (hwf : wellFormed s = true) :
    ∃ d, createDefaultFromSchema s = .ok d ∧ validateAndCoerce d s p = .ok d := by
  match s with
  | .prim t =>
    simp only [wellFormed, Bool.or_eq_true, beq_iff_eq] at hwf
    rcases hwf with ((((h6 | h6) | h6) | h6) | h6) | h6 <;> subst h6
    · exact ⟨.str "", by simp [createDefaultFromSchema, strEndsWithQm, strSlice0m1],
        by simp [validateAndCoerce, strEndsWithQm, strSlice0m1]⟩
    · exact ⟨.num (.val 0), by simp [createDefaultFromSchema, strEndsWithQm, strSlice0m1],
        by simp [validateAndCoerce, strEndsWithQm, strSlice0m1]⟩
    · exact ⟨.bool false, by simp [createDefaultFromSchema, strEndsWithQm, strSlice0m1],
        by simp [validateAndCoerce, strEndsWithQm, strSlice0m1]⟩
    · exact ⟨.undefined, by simp [createDefaultFromSchema, strEndsWithQm, strSlice0m1],
        by simp [validateAndCoerce, strEndsWithQm, strSlice0m1]⟩
    · exact ⟨.undefined, by simp [createDefaultFromSchema, strEndsWithQm, strSlice0m1],
        by simp [validateAndCoerce, strEndsWithQm, strSlice0m1]⟩
    · exact ⟨.undefined, by simp [createDefaultFromSchema, strEndsWithQm, strSlice0m1],
        by simp [validateAndCoerce, strEndsWithQm, strSlice0m1]⟩
  | .arrS items =>
    match items, hwf with
    | [item], hwf =>
      exact ⟨.arr 0 [], by simp [createDefaultFromSchema],
        by simp [validateAndCoerce, validateElems, Except.map]⟩
  | .objS fields =>
    have hnd : nodupKeysB fields = true := by
      simp only [wellFormed, Bool.and_eq_true] at hwf
      exact hwf.1
    have hwff : wellFormedFields fields = true := by
      simp only [wellFormed, Bool.and_eq_true] at hwf
      exact hwf.2
    obtain ⟨dfs, hdfs, hkeys, hval⟩ := defaultFields_valid fields p hnd hwff
    refine ⟨.obj 0 dfs, ?_, ?_⟩
    · simp [createDefaultFromSchema, hdfs, Except.map]
    · simp only [validateAndCoerce]
      rw [except_map_ok]
      exact ⟨dfs, hval, rfl⟩
termination_by (sizeOf s, 0)

theorem defaultFields_valid (fields : List (String × SchemaRaw)) (p : String)
    (hnd : nodupKeysB fields = true) (hwf : wellFormedFields fields = true) :
    ∃ dfs, createDefaultFields fields = .ok dfs ∧
      dfs.map Prod.fst = fields.map Prod.fst ∧ validateFields dfs fields p = .ok dfs := by
  match fields with
  | [] => exact ⟨[], by simp [createDefaultFields], by simp, by simp [validateFields]⟩
  | (key, t) :: rest =>
    have hkeyout : (rest.any (·.fst == key)) = false := by
      simp only [nodupKeysB, Bool.and_eq_true, Bool.not_eq_true'] at hnd
      exact hnd.1
    have hnd2 : nodupKeysB rest = true := by
      simp only [nodupKeysB, Bool.and_eq_true] at hnd
      exact hnd.2
    simp only [wellFormedFields, Bool.and_eq_true] at hwf
    obtain ⟨d, hd, hdv⟩ := default_valid t (if (p == "") = true then key else p ++ "." ++ key) hwf.1
    obtain ⟨dfs', hdfs', hkeys', hval'⟩ := defaultFields_valid rest p hnd2 hwf.2
    refine ⟨(key, d) :: dfs', ?_, ?_, ?_⟩
    · simp only [createDefaultFields]
      rw [except_bind_ok]
      refine ⟨d, hd, ?_⟩
      rw [except_bind_ok]
      exact ⟨dfs', hdfs', by simp⟩
    · simp [hkeys']
    · simp only [validateFields]
      rw [except_bind_ok]
      refine ⟨d, ?_, ?_⟩
      · have hget : objGet ((key, d) :: dfs') key = some d := by simp [objGet]
        rw [hget]
        simpa using hdv
      · rw [except_bind_ok]
        refine ⟨dfs', ?_, by simp⟩
        have hcongr : validateFields ((key, d) :: dfs') rest p = validateFields dfs' rest p := by
          apply validateFields_congr
          intro k' t' hm
          have hne : (k' == key) = false := by
            rw [List.any_eq_false] at hkeyout
            simpa using hkeyout (k', t') hm
          have hne2 : key ≠ k' := by
            intro hkk
            subst hkk
            simp at hne
          simp [objGet, hne2]
        rw [hcongr]
        exact hval'
termination_by (sizeOf fields, 0)

end

/-- Claim C3: `createDefaultFromSchema` is total on well-formed schemas
and its result is a fixed point of validation against the same schema;
required strings default to the empty string, required numbers to 0,
required booleans to false, optional primitives to `undefined` (never
`null`), a one-element array declaration to an empty array, and an object
schema to a fresh object with exactly one entry per schema field. -/
theorem createDefault_totalAndValid :
    (∀ (s : SchemaRaw) (p : String), wellFormed s = true →
      ∃ d, createDefaultFromSchema s = .ok d ∧ validateAndCoerce d s p = .ok d) ∧
    createDefaultFromSchema (.prim "string") = .ok (.str "") ∧
    createDefaultFromSchema (.prim "number") = .ok (.num (.val 0)) ∧
    createDefaultFromSchema (.prim "boolean") = .ok (.bool false) ∧
    createDefaultFromSchema (.prim "string?") = .ok .undefined ∧
    createDefaultFromSchema (.prim "number?") = .ok .undefined ∧
    createDefaultFromSchema (.prim "boolean?") = .ok .undefined ∧
    (∀ item : SchemaRaw, createDefaultFromSchema (.arrS [item]) = .ok (.arr 0 [])) ∧
    (∀ (fields : List (String × SchemaRaw)) (dfs : List (String × JVal)),
      createDefaultFields fields = .ok dfs →
      createDefaultFromSchema (.objS fields) = .ok (.obj 0 dfs) ∧
      dfs.map Prod.fst = fields.map Prod.fst) := by
  refine ⟨default_valid, ?_, ?_, ?_, ?_, ?_, ?_, ?_,
      fun fields dfs h => ⟨by simp [createDefaultFromSchema, h, Except.map],
        createDefaultFields_keys fields dfs h⟩⟩ <;>
    simp [createDefaultFromSchema, strEndsWithQm, strSlice0m1]

/-- Witness for C3 at a concrete schema with a required string, an array
field and an optional string. -/
theorem createDefault_totalAndValid_witness :
    ∃ d, createDefaultFromSchema
        (.objS [("name", .prim "string"), ("tags", .arrS [.prim "string"]),
                ("email", .prim "string?")]) = .ok d ∧
      validateAndCoerce d
        (.objS [("name", .prim "string"), ("tags", .arrS [.prim "string"]),
                ("email", .prim "string?")]) "" = .ok d :=
  createDefault_totalAndValid.1
    (.objS [("name", .prim "string"), ("tags", .arrS [.prim "string"]),
            ("email", .prim "string?")]) ""
    (by simp [wellFormed, wellFormedFields, nodupKeysB])



/-- Claim C4: validation is idempotent — whenever validating `v` against
a well-formed schema succeeds with result `r`, re-validating `r` against
the same schema succeeds and returns `r` itself, whatever paths are used
for error reporting. -/
theorem validate_idempotentOnOutput (v : JVal) (s : SchemaRaw) (p p' : String) (r : JVal)
    (hwf : wellFormed s = true) (h : validateAndCoerce v s p = .ok r) :
    validateAndCoerce r s p' = .ok r :=
  validate_idem v s p p' r hwf h

/-- Witness for C4: re-validating the validated form of an input with a
missing required field and an unknown extra field reproduces it exactly. -/
theorem validate_idempotentOnOutput_witness :
    validateAndCoerce (.obj 0 [("name", .str ""), ("age", .num (.val 25))])
      (.objS [("name", .prim "string"), ("age", .prim "number?")]) "z"
      = .ok (.obj 0 [("name", .str ""), ("age", .num (.val 25))]) :=
  validate_idempotentOnOutput (.obj 3 [("junk", .bool true), ("age", .num (.val 25))])
    (.objS [("name", .prim "string"), ("age", .prim "number?")]) "" "z"
    (.obj 0 [("name", .str ""), ("age", .num (.val 25))])
    (by simp [wellFormed, wellFormedFields, nodupKeysB])
    (by
      simp only [validateAndCoerce, validateFields]
      simp only [objGet, strEnds_string, strEnds_numberQ, strSlice_numberQ]
      simp [validateAndCoerce, strEnds_string, strEnds_numberQ, strSlice_numberQ,
            Except.map, Except.bind, bind])

/-! ## Assoc-list lemmas for the merge -/

theorem objGet_mem : ∀ (fs : List (String × JVal)) (k : String) (w : JVal),
    objGet fs k = some w → (k, w) ∈ fs := by
  intro fs
  induction fs with
  | nil => intro k w h; simp [objGet] at h
  | cons hd tl ih =>
    intro k w h
    obtain ⟨k', v'⟩ := hd
    by_cases hk : k' = k
    · subst hk
      simp [objGet] at h
      subst h
      simp
    · simp [objGet, hk] at h
      exact List.mem_cons_of_mem _ (ih k w h)

theorem mem_implies_objGet_some : ∀ (fs : List (String × JVal)) (k : String) (w : JVal),
    (k, w) ∈ fs → ∃ u, objGet fs k = some u := by
  intro fs
  induction fs with
  | nil => intro k w h; cases h
  | cons hd tl ih =>
    intro k w h
    obtain ⟨k', v'⟩ := hd
    by_cases hk : k' = k
    · subst hk
      exact ⟨v', by simp [objGet]⟩
    · rcases List.mem_cons.mp h with hh | hh
      · cases hh; simp at hk
      · obtain ⟨u, hu⟩ := ih k w hh
        exact ⟨u, by simp [objGet, hk, hu]⟩

theorem objGet_eq_none_iff : ∀ (fs : List (String × JVal)) (k : String),
    objGet fs k = none ↔ (fs.any (·.fst == k)) = false := by
  intro fs
  induction fs with
  | nil => intro k; simp [objGet]
  | cons hd tl ih =>
    intro k
    obtain ⟨k', v'⟩ := hd
    by_cases hk : k' = k
    · subst hk
      simp [objGet]
    · simp [objGet, hk, ih k]

theorem objGet_objSet_self : ∀ (fs : List (String × JVal)) (k : String) (v : JVal),
    objGet (objSet fs k v) k = some v := by
  intro fs
  induction fs with
  | nil => intro k v; simp [objSet, objGet]
  | cons hd tl ih =>
    intro k v
    obtain ⟨k', v'⟩ := hd
    by_cases hk : k' = k
    · subst hk
      simp [objSet, objGet]
    · simp [objSet, objGet, hk, ih]

theorem objGet_objSet_ne : ∀ (fs : List (String × JVal)) (k k' : String) (v : JVal),
    k' ≠ k → objGet (objSet fs k v) k' = objGet fs k' := by
  intro fs
  induction fs with
  | nil =>
    intro k k' v hne
    simp only [objSet, objGet, beq_iff_eq]
    rw [if_neg (fun h : k = k' => hne h.symm)]
  | cons hd tl ih =>
    intro k k' v hne
    obtain ⟨a, b⟩ := hd
    by_cases hk : a = k
    · have hak' : ¬(a = k') := fun h => hne (h.symm.trans hk)
      have hkk' : ¬(k = k') := hk ▸ hak'
      simp [objSet, objGet, hk, hak', hkk']
    · by_cases hak : a = k'
      · simp [objSet, objGet, hk, hak, hne]
      · simp [objSet, objGet, hk, hak, ih k k' v hne]

theorem anyKey_objSet : ∀ (fs : List (String × JVal)) (k k' : String) (v : JVal),
    ((objSet fs k v).any (·.fst == k')) = ((fs.any (·.fst == k')) || (k == k')) := by
  intro fs
  induction fs with
  | nil => intro k k' v; simp [objSet]
  | cons hd tl ih =>
    intro k k' v
    obtain ⟨a, b⟩ := hd
    by_cases hk : a = k
    · subst hk
      simp only [objSet, beq_self_eq_true, if_true, List.any_cons]
      by_cases hk' : a = k'
      · subst hk'
        simp
      · simp [hk']
    · simp only [objSet, beq_iff_eq, hk, if_false, List.any_cons]
      rw [ih k k' v]
      cases h1 : (a == k') <;> simp

theorem nodupKeysB_objSet : ∀ (fs : List (String × JVal)) (k : String) (v : JVal),
    nodupKeysB fs = true → nodupKeysB (objSet fs k v) = true := by
  intro fs
  induction fs with
  | nil => intro k v _; simp [objSet, nodupKeysB]
  | cons hd tl ih =>
    intro k v hnd
    obtain ⟨a, b⟩ := hd
    simp only [nodupKeysB, Bool.and_eq_true, Bool.not_eq_true'] at hnd
    by_cases hk : a = k
    · simp only [objSet, beq_iff_eq, hk, if_true]
      simp [nodupKeysB, hk ▸ hnd.1, hnd.2]
    · simp only [objSet, beq_iff_eq, hk, if_false]
      simp only [nodupKeysB, Bool.and_eq_true, Bool.not_eq_true']
      refine ⟨?_, ih k v hnd.2⟩
      rw [anyKey_objSet]
      have hka : ¬(k = a) := fun h => hk h.symm
      simp [hnd.1, hka]

theorem nodupRecFields_objSet : ∀ (fs : List (String × JVal)) (k : String) (v : JVal),
    nodupRecFields fs = true → nodupRec v = true →
    nodupRecFields (objSet fs k v) = true := by
  intro fs
  induction fs with
  | nil => intro k v _ hv; simp [objSet, nodupRecFields, hv]
  | cons hd tl ih =>
    intro k v hfs hv
    obtain ⟨a, b⟩ := hd
    simp only [nodupRecFields, Bool.and_eq_true] at hfs
    by_cases hk : a = k
    · simp only [objSet, beq_iff_eq, hk, if_true]
      simp [nodupRecFields, hv, hfs.2]
    · simp only [objSet, beq_iff_eq, hk, if_false]
      simp [nodupRecFields, hfs.1, ih k v hfs.2 hv]

theorem objGet_filter_keyPred : ∀ (fs : List (String × JVal)) (p : String → Bool) (k : String),
    objGet (fs.filter (fun kv => p kv.fst)) k
      = if p k then objGet fs k else none := by
  intro fs
  induction fs with
  | nil => intro p k; simp [objGet]
  | cons hd tl ih =>
    intro p k
    obtain ⟨a, b⟩ := hd
    by_cases hk : a = k
    · subst hk
      by_cases hp : p a
      · simp [List.filter, hp, objGet]
      · simp [List.filter, hp, objGet, ih p a]
    · by_cases hp : p a
      · simp [List.filter, hp, objGet, hk, ih p k]
      · simp [List.filter, hp, objGet, hk, ih p k]

theorem nodupKeysB_filter : ∀ (fs : List (String × JVal)) (p : (String × JVal) → Bool),
    nodupKeysB fs = true → nodupKeysB (fs.filter p) = true := by
  intro fs
  induction fs with
  | nil => intro p _; simp [nodupKeysB]
  | cons hd tl ih =>
    intro p hnd
    simp only [nodupKeysB, Bool.and_eq_true, Bool.not_eq_true', List.any_eq_false] at hnd
    by_cases hp : p hd
    · rw [List.filter_cons]
      simp only [hp, if_true, nodupKeysB, Bool.and_eq_true, Bool.not_eq_true',
        List.any_eq_false]
      refine ⟨?_, ih p hnd.2⟩
      intro x hx
      exact hnd.1 x (List.mem_of_mem_filter hx)
    · rw [List.filter_cons]
      simp only [hp, Bool.false_eq_true, if_false]
      exact ih p hnd.2

theorem nodupRecFields_filter : ∀ (fs : List (String × JVal)) (p : (String × JVal) → Bool),
    nodupRecFields fs = true → nodupRecFields (fs.filter p) = true := by
  intro fs
  induction fs with
  | nil => intro p _; simp [nodupRecFields]
  | cons hd tl ih =>
    intro p hnd
    obtain ⟨a, b⟩ := hd
    simp only [nodupRecFields, Bool.and_eq_true] at hnd
    by_cases hp : p (a, b)
    · rw [List.filter_cons]
      simp only [hp, if_true, nodupRecFields, Bool.and_eq_true]
      exact ⟨hnd.1, ih p hnd.2⟩
    · rw [List.filter_cons]
      simp only [hp, Bool.false_eq_true, if_false]
      exact ih p hnd.2

theorem updateEntries_spec_step (key : String) (value newv : JVal)
    (rest acc m : List (String × JVal))
    (hkeyout : (rest.any (·.fst == key)) = false)
    (hA : ∀ k, (rest.any (·.fst == k)) = false →
      objGet m k = objGet (objSet acc key newv) k)
    (hB : ∀ k v, objGet rest k = some v →
      mergedSlot (objGet (objSet acc key newv) k) v (objGet m k))
    (hslot : mergedSlot (objGet acc key) value (some newv)) :
    (∀ k, ((((key, value) :: rest).any (·.fst == k)) = false) →
      objGet m k = objGet acc k) ∧
    (∀ k v, objGet ((key, value) :: rest) k = some v →
      mergedSlot (objGet acc k) v (objGet m k)) := by
  constructor
  · intro k hkf
    simp only [List.any_cons, Bool.or_eq_false_iff] at hkf
    have hkk : ¬(k = key) := by
      intro h
      subst h
      simp at hkf
    rw [hA k hkf.2, objGet_objSet_ne acc key k newv hkk]
  · intro k v hv
    by_cases hkk : key = k
    · subst hkk
      simp [objGet] at hv
      subst hv
      have hm : objGet m key = some newv := by
        rw [hA key hkeyout]
        exact objGet_objSet_self acc key newv
      rw [hm]
      exact hslot
    · have hv' : objGet rest k = some v := by
        simpa [objGet, hkk] using hv
      have := hB k v hv'
      rwa [objGet_objSet_ne acc key k newv (fun h => hkk h.symm)] at this

mutual

theorem updateObject_spec (tfs : List (String × JVal)) (sid : Nat)
    (sfs : List (String × JVal))
    (hsn : noNullFields sfs = true) (hsr : nodupRecFields sfs = true)
    (hsk : nodupKeysB sfs = true) (htk : nodupKeysB tfs = true)
    (htr : nodupRecFields tfs = true) :
    ∃ m, updateObject tfs (.obj sid sfs) = .ok m ∧
      nodupKeysB m = true ∧ nodupRecFields m = true ∧
      (∀ k, (sfs.any (·.fst == k)) = false → objGet m k = none) ∧
      (∀ k v, objGet sfs k = some v → mergedSlot (objGet tfs k) v (objGet m k)) := by
  obtain ⟨m, hm, hk1, hk2, hA, hB⟩ :=
    updateEntries_spec sfs (tfs.filter (fun kv => sfs.any (fun sv => sv.fst == kv.fst)))
      hsn hsr hsk
      (nodupKeysB_filter tfs _ htk) (nodupRecFields_filter tfs _ htr)
  have hfil : ∀ k, objGet (tfs.filter (fun kv => sfs.any (fun sv => sv.fst == kv.fst))) k
      = if (sfs.any (fun sv => sv.fst == k)) then objGet tfs k else none :=
    fun k => objGet_filter_keyPred tfs (fun x => sfs.any (fun sv => sv.fst == x)) k
  refine ⟨m, by simp only [updateObject]; exact hm, hk1, hk2, ?_, ?_⟩
  · intro k hk
    rw [hA k hk, hfil k]
    simp [hk]
  · intro k v hv
    have hkin : (sfs.any (·.fst == k)) = true := by
      by_contra hc
      simp only [Bool.not_eq_true] at hc
      rw [(objGet_eq_none_iff sfs k).mpr hc] at hv
      cases hv
    have hmslot := hB k v hv
    rw [hfil k] at hmslot
    simpa [hkin] using hmslot

theorem updateEntries_spec (entries acc : List (String × JVal))
    (hn : noNullFields entries = true) (hr : nodupRecFields entries = true)
    (hk : nodupKeysB entries = true) (hak : nodupKeysB acc = true)
    (har : nodupRecFields acc = true) :
    ∃ m, updateEntries acc entries = .ok m ∧
      nodupKeysB m = true ∧ nodupRecFields m = true ∧
      (∀ k, (entries.any (·.fst == k)) = false → objGet m k = objGet acc k) ∧
      (∀ k v, objGet entries k = some v → mergedSlot (objGet acc k) v (objGet m k)) := by
  match entries with
  | [] =>
    exact ⟨acc, by simp [updateEntries], hak, har, fun k _ => rfl,
      fun k v hv => by simp [objGet] at hv⟩
  | (key, value) :: rest =>
    have hnv : noNull value = true ∧ noNullFields rest = true := by
      simpa [noNullFields, Bool.and_eq_true] using hn
    have hrv : nodupRec value = true ∧ nodupRecFields rest = true := by
      simpa [nodupRecFields, Bool.and_eq_true] using hr
    have hkv : (rest.any (·.fst == key)) = false ∧ nodupKeysB rest = true := by
      simpa [nodupKeysB, Bool.and_eq_true, Bool.not_eq_true'] using hk
    match value with
    | .null => simp [noNull] at hnv
    | .obj sid2 sfs2 =>
      rcases htold : objGet acc key with _ | w
      case some =>
        match w with
        | .obj tid tfs2 =>
          have htv : nodupRec (.obj tid tfs2) = true :=
            nodupRecFields_mem har (objGet_mem acc key _ htold)
          have htv2 : nodupKeysB tfs2 = true ∧ nodupRecFields tfs2 = true := by
            simpa [nodupRec, Bool.and_eq_true] using htv
          have hsv : nodupKeysB sfs2 = true ∧ nodupRecFields sfs2 = true := by
            simpa [nodupRec, Bool.and_eq_true] using hrv.1
          have hsvn : noNullFields sfs2 = true := by
            simpa [noNull] using hnv.1
          obtain ⟨m2, hm2, hm2k, hm2r, _, _⟩ :=
            updateObject_spec tfs2 sid2 sfs2 hsvn hsv.2 hsv.1 htv2.1 htv2.2
          have hnew : nodupRec (.obj tid m2) = true := by
            simp [nodupRec, hm2k, hm2r]
          obtain ⟨m, hm, hk1, hk2, hA, hB⟩ :=
            updateEntries_spec rest (objSet acc key (.obj tid m2)) hnv.2 hrv.2 hkv.2
              (nodupKeysB_objSet acc key _ hak)
              (nodupRecFields_objSet acc key _ har hnew)
          have hstep := updateEntries_spec_step key (.obj sid2 sfs2) (.obj tid m2)
            rest acc m hkv.1 hA hB
            (by rw [htold]; exact ⟨m2, hm2, rfl⟩)
          refine ⟨m, ?_, hk1, hk2, hstep.1, hstep.2⟩
          simp only [updateEntries, htold, Option.getD, hm2, Except.bind, bind]
          exact hm
        | .arr tid es2 =>
          obtain ⟨m, hm, hk1, hk2, hA, hB⟩ :=
            updateEntries_spec rest (objSet acc key (.obj sid2 sfs2)) hnv.2 hrv.2 hkv.2
              (nodupKeysB_objSet acc key _ hak)
              (nodupRecFields_objSet acc key _ har hrv.1)
          have hstep := updateEntries_spec_step key (.obj sid2 sfs2) (.obj sid2 sfs2)
            rest acc m hkv.1 hA hB (by rw [htold]; simp [mergedSlot])
          refine ⟨m, ?_, hk1, hk2, hstep.1, hstep.2⟩
          simp only [updateEntries, htold, Option.getD]
          exact hm
        | .undefined | .str _ | .num _ | .bool _ =>
          obtain ⟨m, hm, hk1, hk2, hA, hB⟩ :=
            updateEntries_spec rest (objSet acc key (.obj sid2 sfs2)) hnv.2 hrv.2 hkv.2
              (nodupKeysB_objSet acc key _ hak)
              (nodupRecFields_objSet acc key _ har hrv.1)
          have hstep := updateEntries_spec_step key (.obj sid2 sfs2) (.obj sid2 sfs2)
            rest acc m hkv.1 hA hB (by rw [htold]; simp [mergedSlot])
          refine ⟨m, ?_, hk1, hk2, hstep.1, hstep.2⟩
          simp only [updateEntries, htold, Option.getD]
          exact hm
        | .null =>
          obtain ⟨m, hm, hk1, hk2, hA, hB⟩ :=
            updateEntries_spec rest (objSet acc key (.obj sid2 sfs2)) hnv.2 hrv.2 hkv.2
              (nodupKeysB_objSet acc key _ hak)
              (nodupRecFields_objSet acc key _ har hrv.1)
          have hstep := updateEntries_spec_step key (.obj sid2 sfs2) (.obj sid2 sfs2)
            rest acc m hkv.1 hA hB (by rw [htold]; simp [mergedSlot])
          refine ⟨m, ?_, hk1, hk2, hstep.1, hstep.2⟩
          simp only [updateEntries, htold, Option.getD]
          exact hm
      case none =>
        obtain ⟨m, hm, hk1, hk2, hA, hB⟩ :=
          updateEntries_spec rest (objSet acc key (.obj sid2 sfs2)) hnv.2 hrv.2 hkv.2
            (nodupKeysB_objSet acc key _ hak)
            (nodupRecFields_objSet acc key _ har hrv.1)
        have hstep := updateEntries_spec_step key (.obj sid2 sfs2) (.obj sid2 sfs2)
          rest acc m hkv.1 hA hB (by rw [htold]; simp [mergedSlot])
        refine ⟨m, ?_, hk1, hk2, hstep.1, hstep.2⟩
        simp only [updateEntries, htold, Option.getD]
        exact hm
    | .arr said ses =>
      have hses : nodupRecElems ses = true := by
        simpa [nodupRec] using hrv.1
      rcases htold : objGet acc key with _ | w
      case some =>
        match w with
        | .arr tid es2 =>
          have hnew : nodupRec (.arr tid ses) = true := by simp [nodupRec, hses]
          obtain ⟨m, hm, hk1, hk2, hA, hB⟩ :=
            updateEntries_spec rest (objSet acc key (.arr tid ses)) hnv.2 hrv.2 hkv.2
              (nodupKeysB_objSet acc key _ hak)
              (nodupRecFields_objSet acc key _ har hnew)
          have hstep := updateEntries_spec_step key (.arr said ses) (.arr tid ses)
            rest acc m hkv.1 hA hB (by rw [htold]; simp [mergedSlot])
          refine ⟨m, ?_, hk1, hk2, hstep.1, hstep.2⟩
          simp only [updateEntries, htold, Option.getD]
          exact hm
        | .obj tid tfs2 | .undefined | .str _ | .num _ | .bool _ | .null =>
          obtain ⟨m, hm, hk1, hk2, hA, hB⟩ :=
            updateEntries_spec rest (objSet acc key (.arr said ses)) hnv.2 hrv.2 hkv.2
              (nodupKeysB_objSet acc key _ hak)
              (nodupRecFields_objSet acc key _ har hrv.1)
          have hstep := updateEntries_spec_step key (.arr said ses) (.arr said ses)
            rest acc m hkv.1 hA hB (by rw [htold]; simp [mergedSlot])
          refine ⟨m, ?_, hk1, hk2, hstep.1, hstep.2⟩
          simp only [updateEntries, htold, Option.getD]
          exact hm
      case none =>
        obtain ⟨m, hm, hk1, hk2, hA, hB⟩ :=
          updateEntries_spec rest (objSet acc key (.arr said ses)) hnv.2 hrv.2 hkv.2
            (nodupKeysB_objSet acc key _ hak)
            (nodupRecFields_objSet acc key _ har hrv.1)
        have hstep := updateEntries_spec_step key (.arr said ses) (.arr said ses)
          rest acc m hkv.1 hA hB (by rw [htold]; simp [mergedSlot])
        refine ⟨m, ?_, hk1, hk2, hstep.1, hstep.2⟩
        simp only [updateEntries, htold, Option.getD]
        exact hm
    | .undefined =>
      obtain ⟨m, hm, hk1, hk2, hA, hB⟩ :=
        updateEntries_spec rest (objSet acc key .undefined) hnv.2 hrv.2 hkv.2
          (nodupKeysB_objSet acc key _ hak)
          (nodupRecFields_objSet acc key _ har hrv.1)
      have hstep := updateEntries_spec_step key .undefined .undefined rest acc m hkv.1 hA hB
        (by simp [mergedSlot])
      refine ⟨m, ?_, hk1, hk2, hstep.1, hstep.2⟩
      simp only [updateEntries]
      exact hm
    | .str sv =>
      obtain ⟨m, hm, hk1, hk2, hA, hB⟩ :=
        updateEntries_spec rest (objSet acc key (.str sv)) hnv.2 hrv.2 hkv.2
          (nodupKeysB_objSet acc key _ hak)
          (nodupRecFields_objSet acc key _ har hrv.1)
      have hstep := updateEntries_spec_step key (.str sv) (.str sv) rest acc m hkv.1 hA hB
        (by simp [mergedSlot])
      refine ⟨m, ?_, hk1, hk2, hstep.1, hstep.2⟩
      simp only [updateEntries]
      exact hm
    | .num nv =>
      obtain ⟨m, hm, hk1, hk2, hA, hB⟩ :=
        updateEntries_spec rest (objSet acc key (.num nv)) hnv.2 hrv.2 hkv.2
          (nodupKeysB_objSet acc key _ hak)
          (nodupRecFields_objSet acc key _ har hrv.1)
      have hstep := updateEntries_spec_step key (.num nv) (.num nv) rest acc m hkv.1 hA hB
        (by simp [mergedSlot])
      refine ⟨m, ?_, hk1, hk2, hstep.1, hstep.2⟩
      simp only [updateEntries]
      exact hm
    | .bool bv =>
      obtain ⟨m, hm, hk1, hk2, hA, hB⟩ :=
        updateEntries_spec rest (objSet acc key (.bool bv)) hnv.2 hrv.2 hkv.2
          (nodupKeysB_objSet acc key _ hak)
          (nodupRecFields_objSet acc key _ har hrv.1)
      have hstep := updateEntries_spec_step key (.bool bv) (.bool bv) rest acc m hkv.1 hA hB
        (by simp [mergedSlot])
      refine ⟨m, ?_, hk1, hk2, hstep.1, hstep.2⟩
      simp only [updateEntries]
      exact hm

end

theorem deepEqFields_of_pointwise (fs : List (String × JVal)) :
    ∀ (gs : List (String × JVal)),
      (∀ k v, (k, v) ∈ gs → ∃ w, objGet fs k = some w ∧ deepEq w v = true) →
      deepEqFields fs gs = true := by
  intro gs
  induction gs with
  | nil => intro _; simp [deepEqFields]
  | cons hd tl ih =>
    intro h
    obtain ⟨k, v⟩ := hd
    obtain ⟨w, hw, hdq⟩ := h k v (by simp)
    simp only [deepEqFields, Bool.and_eq_true]
    exact ⟨by rw [hw]; exact hdq, ih (fun k' v' hm => h k' v' (List.mem_cons_of_mem _ hm))⟩

theorem mergedContent_deepEq (sid : Nat) (sfs tfs : List (String × JVal)) (i : Nat)
    (m : List (String × JVal))
    (hsn : noNullFields sfs = true) (hsr : nodupRecFields sfs = true)
    (hsk : nodupKeysB sfs = true) (htk : nodupKeysB tfs = true)
    (htr : nodupRecFields tfs = true)
    (hm : updateObject tfs (.obj sid sfs) = .ok m) :
    deepEq (.obj i m) (.obj sid sfs) = true := by
  obtain ⟨m', hm', hk1, hk2, hA, hB⟩ := updateObject_spec tfs sid sfs hsn hsr hsk htk htr
  rw [hm] at hm'
  have hme : m' = m := by
    cases hm'
    rfl
  subst hme
  simp only [deepEq, Bool.and_eq_true]
  constructor
  · rw [List.all_eq_true]
    intro kv hkv
    by_contra hc
    simp only [Bool.not_eq_true] at hc
    have hnone := hA kv.fst hc
    obtain ⟨u, hu⟩ := mem_implies_objGet_some m' kv.fst kv.snd (by
      have : (kv.fst, kv.snd) = kv := rfl
      rw [this]
      exact hkv)
    rw [hu] at hnone
    cases hnone
  · apply deepEqFields_of_pointwise
    intro k v hmem
    have hget : objGet sfs k = some v := objGet_eq_of_nodup hsk hmem
    have hslot := hB k v hget
    have hvrec : nodupRec v = true := nodupRecFields_mem hsr hmem
    match v, hslot with
    | .obj vsid vsfs, hslot =>
      rcases htold : objGet tfs k with _ | w
      · rw [htold] at hslot
        simp only [mergedSlot] at hslot
        exact ⟨.obj vsid vsfs, hslot, deepEq_refl _ hvrec⟩
      · rw [htold] at hslot
        match w with
        | .obj tid tfs2 =>
          simp only [mergedSlot] at hslot
          obtain ⟨m2, hm2, hmv⟩ := hslot
          have htv2 : nodupKeysB tfs2 = true ∧ nodupRecFields tfs2 = true := by
            have := nodupRecFields_mem htr (objGet_mem tfs k _ htold)
            simpa [nodupRec, Bool.and_eq_true] using this
          have hsv : nodupKeysB vsfs = true ∧ nodupRecFields vsfs = true := by
            simpa [nodupRec, Bool.and_eq_true] using hvrec
          have hsvn : noNullFields vsfs = true := by
            have := noNullFields_mem hsn hmem
            simpa [noNull] using this
          refine ⟨.obj tid m2, hmv, ?_⟩
          exact mergedContent_deepEq vsid vsfs tfs2 tid m2 hsvn hsv.2 hsv.1
            htv2.1 htv2.2 hm2
        | .arr tid es2 =>
          simp only [mergedSlot] at hslot
          exact ⟨.obj vsid vsfs, hslot, deepEq_refl _ hvrec⟩
        | .undefined | .null | .str _ | .num _ | .bool _ =>
          simp only [mergedSlot] at hslot
          exact ⟨.obj vsid vsfs, hslot, deepEq_refl _ hvrec⟩
    | .arr vsid ses, hslot =>
      have hses : nodupRecElems ses = true := by
        simpa [nodupRec] using hvrec
      rcases htold : objGet tfs k with _ | w
      · rw [htold] at hslot
        simp only [mergedSlot] at hslot
        exact ⟨.arr vsid ses, hslot, deepEq_refl _ hvrec⟩
      · rw [htold] at hslot
        match w with
        | .arr tid es2 =>
          simp only [mergedSlot] at hslot
          refine ⟨.arr tid ses, hslot, ?_⟩
          simp only [deepEq]
          exact deepEqElems_refl ses hses
        | .obj tid tfs2 | .undefined | .null | .str _ | .num _ | .bool _ =>
          simp only [mergedSlot] at hslot
          exact ⟨.arr vsid ses, hslot, deepEq_refl _ hvrec⟩
    | .undefined, hslot =>
      simp only [mergedSlot] at hslot
      exact ⟨.undefined, hslot, by simp [deepEq]⟩
    | .null, hslot =>
      simp only [mergedSlot] at hslot
      exact ⟨.null, hslot, by simp [deepEq]⟩
    | .str sv, hslot =>
      simp only [mergedSlot] at hslot
      exact ⟨.str sv, hslot, by simp [deepEq]⟩
    | .num nv, hslot =>
      simp only [mergedSlot] at hslot
      exact ⟨.num nv, hslot, by simp [deepEq]⟩
    | .bool bv, hslot =>
      simp only [mergedSlot] at hslot
      exact ⟨.bool bv, hslot, by simp [deepEq]⟩
termination_by sizeOf sfs
decreasing_by
  have h1 := List.sizeOf_lt_of_mem hmem
  simp only [Prod.mk.sizeOf_spec, JVal.obj.sizeOf_spec] at h1
  simp
  omega

theorem getPathV_cons_obj {w x : JVal} {k2 : String} {rest : List String}
    (h : getPathV w (k2 :: rest) = some x) : ∃ jw wfs, w = .obj jw wfs := by
  cases w <;> simp [getPathV] at h <;> exact ⟨_, _, rfl⟩

theorem getPathV_obj_shape {w : JVal} {q : List String} {j : Nat}
    {gfs : List (String × JVal)} (h : getPathV w q = some (.obj j gfs)) :
    ∃ jw wfs, w = .obj jw wfs := by
  cases q with
  | nil =>
    simp [getPathV] at h
    exact ⟨j, gfs, h⟩
  | cons k2 rest => exact getPathV_cons_obj h

theorem mergedPath_pres : ∀ (q : List String) (tid : Nat) (tfs : List (String × JVal))
    (sid : Nat) (sfs m : List (String × JVal)),
    noNullFields sfs = true → nodupRecFields sfs = true → nodupKeysB sfs = true →
    nodupKeysB tfs = true → nodupRecFields tfs = true →
    updateObject tfs (.obj sid sfs) = .ok m →
    (∀ j gfs j' gfs', getPathV (.obj tid tfs) q = some (.obj j gfs) →
      getPathV (.obj sid sfs) q = some (.obj j' gfs') →
      ∃ hfs, getPathV (.obj tid m) q = some (.obj j hfs)) ∧
    (∀ j es j' es', getPathV (.obj tid tfs) q = some (.arr j es) →
      getPathV (.obj sid sfs) q = some (.arr j' es') →
      getPathV (.obj tid m) q = some (.arr j es')) := by
  intro q
  induction q with
  | nil =>
    intro tid tfs sid sfs m _ _ _ _ _ _
    constructor
    · intro j gfs j' gfs' h1 h2
      simp only [getPathV, Option.some.injEq] at h1
      exact ⟨m, by simp [getPathV, ← JVal.obj.injEq tid m j m |>.mpr ⟨(JVal.obj.injEq .. |>.mp h1).1, rfl⟩]⟩
    · intro j es j' es' h1 h2
      simp [getPathV] at h1
  | cons k q' ih =>
    intro tid tfs sid sfs m hsn hsr hsk htk htr hm
    obtain ⟨m', hm', hk1, hk2, hA, hB⟩ := updateObject_spec tfs sid sfs hsn hsr hsk htk htr
    rw [hm] at hm'
    have hme : m' = m := by
      cases hm'
      rfl
    subst hme
    have hstep : ∀ w u, objGet tfs k = some w → objGet sfs k = some u →
        (∀ X, getPathV (.obj tid tfs) (k :: q') = X → getPathV w q' = X) := by
      intro w u hw hu X hX
      subst hX
      simp [getPathV, hw]
    constructor
    · intro j gfs j' gfs' h1 h2
      simp only [getPathV] at h1 h2 ⊢
      rcases hw : objGet tfs k with _ | w
      · rw [hw] at h1
        cases h1
      · rw [hw] at h1
        rcases hu : objGet sfs k with _ | u
        · rw [hu] at h2
          cases h2
        · rw [hu] at h2
          obtain ⟨jw, wfs, hwe⟩ := getPathV_obj_shape h1
          obtain ⟨ju, ufs, hue⟩ := getPathV_obj_shape h2
          subst hwe
          subst hue
          have hslot := hB k (.obj ju ufs) hu
          rw [hw] at hslot
          simp only [mergedSlot] at hslot
          obtain ⟨m2, hm2, hmv⟩ := hslot
          have htv2 : nodupKeysB wfs = true ∧ nodupRecFields wfs = true := by
            have := nodupRecFields_mem htr (objGet_mem tfs k _ hw)
            simpa [nodupRec, Bool.and_eq_true] using this
          have husv : nodupKeysB ufs = true ∧ nodupRecFields ufs = true := by
            have := nodupRecFields_mem hsr (objGet_mem sfs k _ hu)
            simpa [nodupRec, Bool.and_eq_true] using this
          have husn : noNullFields ufs = true := by
            have := noNullFields_mem hsn (objGet_mem sfs k _ hu)
            simpa [noNull] using this
          obtain ⟨hfs, hpath⟩ := (ih jw wfs ju ufs m2 husn husv.2 husv.1
            htv2.1 htv2.2 hm2).1 j gfs j' gfs' h1 h2
          refine ⟨hfs, ?_⟩
          rw [hmv]
          simpa [getPathV] using hpath
    · intro j es j' es' h1 h2
      simp only [getPathV] at h1 h2 ⊢
      rcases hw : objGet tfs k with _ | w
      · rw [hw] at h1
        cases h1
      · rw [hw] at h1
        rcases hu : objGet sfs k with _ | u
        · rw [hu] at h2
          cases h2
        · rw [hu] at h2
          cases q' with
          | nil =>
            simp only [getPathV, Option.some.injEq] at h1 h2
            subst h1
            subst h2
            have hslot := hB k (.arr j' es') hu
            rw [hw] at hslot
            simp only [mergedSlot] at hslot
            rw [hslot]
            simp [getPathV]
          | cons k2 rest =>
            obtain ⟨jw, wfs, hwe⟩ := getPathV_cons_obj h1
            obtain ⟨ju, ufs, hue⟩ := getPathV_cons_obj h2
            subst hwe
            subst hue
            have hslot := hB k (.obj ju ufs) hu
            rw [hw] at hslot
            simp only [mergedSlot] at hslot
            obtain ⟨m2, hm2, hmv⟩ := hslot
            have htv2 : nodupKeysB wfs = true ∧ nodupRecFields wfs = true := by
              have := nodupRecFields_mem htr (objGet_mem tfs k _ hw)
              simpa [nodupRec, Bool.and_eq_true] using this
            have husv : nodupKeysB ufs = true ∧ nodupRecFields ufs = true := by
              have := nodupRecFields_mem hsr (objGet_mem sfs k _ hu)
              simpa [nodupRec, Bool.and_eq_true] using this
            have husn : noNullFields ufs = true := by
              have := noNullFields_mem hsn (objGet_mem sfs k _ hu)
              simpa [noNull] using this
            have hpath := (ih jw wfs ju ufs m2 husn husv.2 husv.1
              htv2.1 htv2.2 hm2).2 j es j' es' h1 h2
            rw [hmv]
            simpa [getPathV] using hpath

theorem validate_obj_shape (v : JVal) (fields : List (String × SchemaRaw)) (p : String)
    (src : JVal) (h : validateAndCoerce v (.objS fields) p = .ok src) :
    ∃ sfs, src = .obj 0 sfs := by
  cases v with
  | obj id dfs =>
    simp only [validateAndCoerce] at h
    rw [except_map_ok] at h
    obtain ⟨sfs, _, he⟩ := h
    exact ⟨sfs, he⟩
  | _ => simp [validateAndCoerce] at h

/-- Claim C2: for a store whose root data is a plain object, applying a
freshly validated value via the reference-preserving merge keeps the top
level data reference's identity `i`, makes its content deep-equal the
validated source, preserves the identity of every nested plain object
present at the same key path in both the old data and the new value, and
preserves the identity of nested arrays at shared key paths while
replacing their contents with the validated elements.  (`reload()` and
`reset()` both perform exactly this merge after validating.) -/
theorem reloadObjectRoot_preservesReferences (i : Nat) (tfs : List (String × JVal))
    (v src : JVal) (fields : List (String × SchemaRaw))
    (hwf : wellFormed (.objS fields) = true)
    (hval : validateAndCoerce v (.objS fields) "" = .ok src)
    (ht : nodupRec (.obj i tfs) = true) :
    ∃ mfs, updateDataRef (.obj i tfs) src = .ok (.obj i mfs) ∧
      deepEq (.obj i mfs) src = true ∧
      (∀ q j gfs j' gfs', getPathV (.obj i tfs) q = some (.obj j gfs) →
        getPathV src q = some (.obj j' gfs') →
        ∃ hfs, getPathV (.obj i mfs) q = some (.obj j hfs)) ∧
      (∀ q j es j' es', getPathV (.obj i tfs) q = some (.arr j es) →
        getPathV src q = some (.arr j' es') →
        getPathV (.obj i mfs) q = some (.arr j es')) := by
  obtain ⟨sfs, hsrc⟩ := validate_obj_shape v fields "" src hval
  subst hsrc
  have hgood := validate_good v (.objS fields) "" (.obj 0 sfs) hwf hval
  have hsn : noNullFields sfs = true := by
    simpa [noNull] using hgood.1
  have hs2 : nodupKeysB sfs = true ∧ nodupRecFields sfs = true := by
    simpa [nodupRec, Bool.and_eq_true] using hgood.2
  have ht2 : nodupKeysB tfs = true ∧ nodupRecFields tfs = true := by
    simpa [nodupRec, Bool.and_eq_true] using ht
  obtain ⟨m, hm, hk1, hk2, hA, hB⟩ :=
    updateObject_spec tfs 0 sfs hsn hs2.2 hs2.1 ht2.1 ht2.2
  refine ⟨m, ?_, ?_, ?_, ?_⟩
  · simp only [updateDataRef]
    rw [hm]
    simp [Except.map]
  · exact mergedContent_deepEq 0 sfs tfs i m hsn hs2.2 hs2.1 ht2.1 ht2.2 hm
  · exact fun q j gfs j' gfs' h1 h2 =>
      (mergedPath_pres q i tfs 0 sfs m hsn hs2.2 hs2.1 ht2.1 ht2.2 hm).1
        j gfs j' gfs' h1 h2
  · exact fun q j es j' es' h1 h2 =>
      (mergedPath_pres q i tfs 0 sfs m hsn hs2.2 hs2.1 ht2.1 ht2.2 hm).2
        j es j' es' h1 h2

/-- Witness for C2: merging a freshly validated value onto a live object
with a stale key and a shared nested object keeps the root and nested
identity tags. -/
theorem reloadObjectRoot_preservesReferences_witness :
    ∃ mfs, updateDataRef (.obj 1 [("a", .obj 2 [("x", .num (.val 1))]), ("gone", .bool true)])
        (.obj 0 [("a", .obj 0 [("x", .num (.val 2))]), ("b", .str "new")])
      = .ok (.obj 1 mfs) ∧
      deepEq (.obj 1 mfs) (.obj 0 [("a", .obj 0 [("x", .num (.val 2))]), ("b", .str "new")]) = true ∧
      (∀ q j gfs j' gfs',
        getPathV (.obj 1 [("a", .obj 2 [("x", .num (.val 1))]), ("gone", .bool true)]) q
          = some (.obj j gfs) →
        getPathV (.obj 0 [("a", .obj 0 [("x", .num (.val 2))]), ("b", .str "new")]) q
          = some (.obj j' gfs') →
        ∃ hfs, getPathV (.obj 1 mfs) q = some (.obj j hfs)) ∧
      (∀ q j es j' es',
        getPathV (.obj 1 [("a", .obj 2 [("x", .num (.val 1))]), ("gone", .bool true)]) q
          = some (.arr j es) →
        getPathV (.obj 0 [("a", .obj 0 [("x", .num (.val 2))]), ("b", .str "new")]) q
          = some (.arr j' es') →
        getPathV (.obj 1 mfs) q = some (.arr j es')) :=
  reloadObjectRoot_preservesReferences 1
    [("a", .obj 2 [("x", .num (.val 1))]), ("gone", .bool true)]
    (.obj 9 [("a", .obj 8 [("x", .num (.val 2))]), ("b", .str "new")])
    (.obj 0 [("a", .obj 0 [("x", .num (.val 2))]), ("b", .str "new")])
    [("a", .objS [("x", .prim "number")]), ("b", .prim "string")]
    (by simp [wellFormed, wellFormedFields, nodupKeysB])
    (by
      simp only [validateAndCoerce, validateFields]
      simp only [objGet, strEnds_string, strEnds_number]
      simp [validateAndCoerce, validateFields, objGet, strEnds_string, strEnds_number,
            Except.map, Except.bind, bind])
    (by simp [nodupRec, nodupRecFields, nodupKeysB, nodupRecElems])
